import Mathlib

/-!
# A shallow embedding of the zap evaluation pipeline

This development embeds the core of the zap interpreter (the crate under
`src/zap/src`) in Lean: the value model (`zap.rs`), the incremental tokenizer
(`reader.rs`), the bytecode compiler (`compiler.rs`) and the virtual machine
(`vm.rs`), and proves or refutes the specified properties against it.

Modelling conventions:

* Rust `f64` numbers are modelled as `Int`; every numeric computation that a
  settled claim exercises involves only small integers, on which `f64`
  arithmetic is exact.
* `Arc` pointer identity (used by `PartialEq` for lists and functions) is
  modelled by a numeric `id` carried by each shared value; distinct
  allocations receive distinct ids.
* Fallible Rust code returns `Res α`; a Rust `panic` (including an
  out-of-bounds index or an out-of-bounds unchecked/pointer access, which is
  undefined behaviour) is the distinguished error `ZErr.panicked`.
* Loops whose termination is not structural run on explicit fuel; running out
  of fuel yields `none`, never a value.
-/

/-- The single error channel of the crate (`ZapErr::Msg`), extended with
`panicked` marking a Rust panic or undefined behaviour. -/
inductive ZErr where
  | msg (s : String)
  | panicked
  deriving Repr, DecidableEq

/-- `Result<T, ZapErr>`. -/
abbrev Res (α : Type) : Type := Except ZErr α

/-- Bytecode operations, `vm.rs` `enum Op`. Operand widths (`u16` constant
indexes, `u8` argument counts and local indexes) are enforced at emission
time by the compiler, mirroring the `try_into` conversions of the source, so
the payloads here are plain `Nat`. -/
inductive Op where
  | push (k : Nat)
  | call (a : Nat)
  | tailcall (a : Nat)
  | condJmp (n : Nat)
  | jmp (n : Nat)
  | lookUp (s : Nat)
  | define
  | pop
  | load (i : Nat)
  | store (i : Nat)
  | addConst (k : Nat)
  | add
  | eqConst (k : Nat)
  | eq
  | ret
  | closure
  deriving Repr, DecidableEq

/-- `compiler.rs` `struct Outer`: a compile-time capture descriptor. -/
structure Outer where
  level : Nat
  position : Nat
  dest : Nat
  deriving Repr, DecidableEq

/-- Runtime values, `zap.rs` `enum Value`. Shared values (`List`, `FuncNative`,
`Func`, `Closure`) carry an allocation `id` standing for their `Arc` pointer.
A compiled function inlines the fields of its `Chunk` (`ops`, `consts`,
`scopeSize`, `arity`). -/
inductive Value where
  | nil
  | bool (b : Bool)
  | number (n : Int)
  | symbol (s : Nat)
  | str (s : String)
  | list (id : Nat) (elems : List Value)
  | funcNative (id : Nat) (name : String)
  | func (id : Nat) (locals : List Value) (fops : List Op) (fconsts : List Value)
      (fscope : Nat) (farity : Nat)
  | closure (id : Nat) (outers : List Outer) (fops : List Op) (fconsts : List Value)
      (fscope : Nat) (farity : Nat)
  deriving Repr

/-- `vm.rs` `struct Chunk` (plus the `arity` field that `compiler.rs` writes;
the spec lists it as informational). -/
structure Chunk where
  ops : List Op
  consts : List Value
  scopeSize : Nat
  arity : Nat
  deriving Repr

/-- `Chunk::default()`. -/
def Chunk.default : Chunk := ⟨[], [], 0, 0⟩

/-- `impl PartialEq for Value` (`zap.rs`): structural on atoms and strings,
`Arc::ptr_eq` (here: id equality) on lists, native functions and functions;
any other pairing, closures included, is unequal. -/
def veq : Value → Value → Bool
  | .nil, .nil => true
  | .bool a, .bool b => a == b
  | .number a, .number b => a == b
  | .symbol a, .symbol b => a == b
  | .str a, .str b => a == b
  | .list i _, .list j _ => i == j
  | .funcNative i _, .funcNative j _ => i == j
  | .func i _ _ _ _ _, .func j _ _ _ _ _ => i == j
  | _, _ => false

/-- `Value::is_truthy`: everything except `Nil` and `Bool(false)`. -/
def isTruthy : Value → Bool
  | .nil => false
  | .bool false => false
  | _ => true

/-- `compiler.rs` `fn is_const`: not a list and not a symbol. -/
def isConst : Value → Bool
  | .list _ _ => false
  | .symbol _ => false
  | _ => true

/-- `impl Add for &Value` (`zap.rs`): numeric addition, anything else errors.
The error text interpolates the printed operands; only its occurrence, not
its exact rendering, matters to the claims, so it is abbreviated. -/
def vadd : Value → Value → Res Value
  | .number a, .number b => .ok (.number (a + b))
  | _, _ => .error (.msg ("Can't add"))

/-- The reserved special-form symbol ids the compiler matches on
(`crate::env::symbols`). Modelled from the spec: the `env.rs` revision under
`src/` predates the bytecode compiler and lacks the `EQUAL`, `PLUS`,
`QUASIQUOTE`, `UNQUOTE` and `SPLICE_UNQUOTE` constants that `compiler.rs`
imports, so the reserved prefix is taken from spec section 3: a fixed prefix
of interned ids, compile-time constants, one per special form. Only their
distinctness matters to the compiler. -/
def symId : String → Nat
  | "if" => 0
  | "let" => 1
  | "fn" => 2
  | "do" => 3
  | "def" => 4
  | "quote" => 5
  | "quasiquote" => 6
  | "unquote" => 7
  | "splice-unquote" => 8
  | "+" => 9
  | "=" => 10
  | _ => 11

/-- Indexing a `ZapList`/`Vec` with `[]`, which panics when out of bounds. -/
def vIdx (l : List Value) (i : Nat) : Res Value :=
  match l.get? i with
  | some v => .ok v
  | none => .error .panicked

/-- A global environment of dense symbol slots. Modelled from the spec
(section 4.2): the trait implementation with `get_by_id` that `vm.rs` calls
is not in the `src/` snapshot, so `get_by_id` reads the slot of the id and
fails with a `not in scope` message when empty, and `set` requires a symbol
key. The settled claims never execute `LookUp` or `Define` on a missing
binding. -/
def EnvT : Type := List (Nat × Value)

/-- Modelled from the spec: `Env::get_by_id`. -/
def envGet (e : EnvT) (s : Nat) : Res Value :=
  match e.find? (fun p => p.fst == s) with
  | some p => .ok p.snd
  | none => .error (.msg ("symbol not in scope."))

/-- Modelled from the spec: `Env::set`, keyed by a symbol value. -/
def envSet (e : EnvT) (key : Value) (v : Value) : Res EnvT :=
  match key with
  | .symbol s => .ok ((s, v) :: e)
  | _ => .error (.msg ("Env set: only symbols can be used as keys."))

/-! ## The tokenizer (`reader.rs`)

Only the token-producing half of the reader is embedded: `tokenize`,
`tokenize_string` and `flush_token`. `read_ast` and the parent-form stack are
untouched by these, so `Reader` here carries the fields they use. `lines` is
a `u32` counter kept modulo `2^32` (release-build wrapping). The `while`
loop of `tokenize` runs on explicit fuel; each iteration consumes at least
the character it matched, so `length + 1` fuel always suffices (claim C10).
-/

/-- `reader.rs` `enum Token`. -/
inductive Token where
  | atom (s : List Char)
  | quote
  | quasiquote
  | unquote
  | listStart
  | listEnd
  | spliceUnquote
  | deref
  deriving Repr, DecidableEq

/-- The tokenizer's slice of `struct Reader`. -/
structure Reader where
  lines : Nat
  tokens : List Token
  tokenBuf : List Char
  deriving Repr, DecidableEq

/-- `Reader::new()`. -/
def Reader.init : Reader := ⟨1, [], []⟩

/-- The `u32` line counter increment, wrapping as in a release build. -/
def bumpLines (n : Nat) : Nat := (n + 1) % 4294967296

/-- `Reader::flush_token`: commit a pending non-empty atom token. -/
def flushToken (r : Reader) : Reader :=
  if r.tokenBuf.isEmpty then r
  else { r with tokens := r.tokens ++ [Token.atom r.tokenBuf], tokenBuf := [] }

/-- `Reader::tokenize_string`: consume characters of a string literal until
its closing quote, handling `\n \r \0 \t` and passing any other escaped
character through; returns the reader and the unconsumed rest. The `escaped`
seed is recomputed by the caller from the buffer's last character. -/
def tokStr (r : Reader) (escaped : Bool) : List Char → Reader × List Char
  | [] => (r, [])
  | c :: cs =>
    if escaped then
      let d : Char :=
        if c = 'n' then '\n'
        else if c = 'r' then '\r'
        else if c = '0' then '\x00'
        else if c = 't' then '\t'
        else c
      tokStr { r with tokenBuf := r.tokenBuf ++ [d] } false cs
    else if c = '"' then (flushToken r, cs)
    else if c = '\\' then tokStr r true cs
    else if c = '\n' then
      tokStr { r with lines := bumpLines r.lines, tokenBuf := r.tokenBuf ++ [c] } false cs
    else tokStr { r with tokenBuf := r.tokenBuf ++ [c] } false cs

/-- `chars.any(|ch| ch == '\n')`: consume up to and including the first
newline; report whether one was found and return the rest. -/
def dropLine : List Char → Bool × List Char
  | [] => (false, [])
  | c :: cs => if c = '\n' then (true, cs) else dropLine cs

/-- One iteration of `Reader::tokenize`'s `while let Some(ch)` loop over the
matched character `c`; `tokRec` continues the loop on the unconsumed rest. -/
def tokMainBody (tokRec : Reader → List Char → Option Reader) (r : Reader)
    (c : Char) (cs : List Char) : Option Reader :=
  if c = '\n' then
    tokRec (flushToken { r with lines := bumpLines r.lines }) cs
  else if c = ' ' ∨ c = '\t' ∨ c = ',' then
    tokRec (flushToken r) cs
  else if c = '(' then
    let r := flushToken r
    tokRec { r with tokens := r.tokens ++ [Token.listStart] } cs
  else if c = ')' then
    let r := flushToken r
    tokRec { r with tokens := r.tokens ++ [Token.listEnd] } cs
  else if c = '\'' then
    let r := flushToken r
    tokRec { r with tokens := r.tokens ++ [Token.quote] } cs
  else if c = '@' then
    tokRec { r with tokens := r.tokens ++ [Token.deref] } cs
  else if c = '`' then
    tokRec { r with tokens := r.tokens ++ [Token.quasiquote] } cs
  else if c = '^' then
    if r.tokenBuf.isEmpty then
      tokRec { r with tokens := r.tokens ++ [Token.atom [c]] } cs
    else
      tokRec { r with tokenBuf := r.tokenBuf ++ [c] } cs
  else if c = '~' then
    if r.tokenBuf.isEmpty then
      match cs with
      | '@' :: rest =>
        tokRec { r with tokens := r.tokens ++ [Token.spliceUnquote] } rest
      | _ :: _ =>
        tokRec { r with tokens := r.tokens ++ [Token.unquote] } cs
      | [] => some { r with tokenBuf := r.tokenBuf ++ [c] }
    else
      tokRec { r with tokenBuf := r.tokenBuf ++ [c] } cs
  else if c = ';' then
    let r := flushToken r
    let r := { r with tokenBuf := r.tokenBuf ++ [c] }
    let d := dropLine cs
    if d.1 then tokRec { r with tokenBuf := [] } d.2
    else some r
  else if c = '"' then
    let r := flushToken r
    let s := tokStr { r with tokenBuf := r.tokenBuf ++ [c] } false cs
    tokRec s.1 s.2
  else
    tokRec { r with tokenBuf := r.tokenBuf ++ [c] } cs

/-- The `while let Some(ch)` loop of `Reader::tokenize`, on fuel. -/
def tokMain : Nat → Reader → List Char → Option Reader
  | _, r, [] => some r
  | 0, _, _ :: _ => none
  | fuel + 1, r, c :: cs => tokMainBody (tokMain fuel) r c cs

/-- `Reader::tokenize`: resume a pending string, comment or `~` from the
buffer prefix, then run the main loop. -/
def tokenize (fuel : Nat) (r : Reader) (cs : List Char) : Option Reader :=
  if r.tokenBuf.head? = some '"' then
    let s := tokStr r (r.tokenBuf.getLast? = some '\\') cs
    tokMain fuel s.1 s.2
  else if r.tokenBuf.head? = some ';' then
    let d := dropLine cs
    if d.1 then tokMain fuel { r with tokenBuf := [] } d.2
    else some r
  else if r.tokenBuf.head? = some '~' then
    match cs with
    | '@' :: rest =>
      tokMain fuel { r with tokens := r.tokens ++ [Token.spliceUnquote] } rest
    | _ :: _ =>
      tokMain fuel { r with tokens := r.tokens ++ [Token.unquote], tokenBuf := [] } cs
    | [] => tokMain fuel r cs
  else
    tokMain fuel r cs

/-! ## The compiler (`compiler.rs`)

A faithful translation of `struct Compiler`, `struct Scoping` and the
work-stack loop of `fn compile`. The `Vec` of scopes and of outer lists is
kept innermost-first (Rust pushes and pops at the end); `get_outer` converts
back to the original index for the `level` field. Fresh `Arc` allocations
made by the compiler (function and closure values) draw ids from a `fresh`
counter supplied at initialisation. -/

/-- `compiler.rs` `enum Form`. `ZapList` payloads are carried as the list's
allocation id plus its elements. -/
inductive Form where
  | value (v : Value)
  | listF (id : Nat) (elems : List Value) (idx : Nat)
  | applyF
  | ifCond (id : Nat) (elems : List Value)
  | ifThen (id : Nat) (elems : List Value) (saved : List Op)
  | ifElse (saved : List Op) (thenOps : List Op)
  | doF (id : Nat) (elems : List Value) (idx : Nat)
  | defineF
  | retF (parent : Chunk)
  | addMany (id : Nat) (elems : List Value) (idx : Nat)
  | addF
  | equalF
  | equalConst (k : Nat)
  | letF (n : Nat)
  | binding (s : Nat)
  | quotingF
  deriving Repr

/-- `struct Scoping`: scope stack (high-water mark and declared locals) and
the parallel stack of outer captures, innermost scope first. -/
structure Scoping where
  scopes : List (Nat × List Nat)
  outers : List (List Outer)
  deriving Repr

/-- `Scoping::default()`: one empty global scope. -/
def Scoping.start : Scoping := ⟨[(0, [])], [[]]⟩

/-- Index of the last occurrence (the source iterates `rev()`). -/
def lastIdxOf (l : List Nat) (s : Nat) : Option Nat :=
  match l with
  | [] => none
  | a :: rest =>
    match lastIdxOf rest s with
    | some i => some (i + 1)
    | none => if a == s then some 0 else none

/-- `Scoping::push_local`: append the symbol to the innermost scope, bump the
high-water mark, convert the new length to a `LocalIndex` (`u8`). -/
def pushLocal (sc : Scoping) (s : Nat) : Res (Scoping × Nat) :=
  match sc.scopes with
  | [] => .error .panicked
  | (maxLen, locals) :: rest =>
    let locals := locals ++ [s]
    let len := locals.length
    if 255 < len then .error (.msg ("Too many locals in scope!"))
    else .ok (⟨(max maxLen len, locals) :: rest, sc.outers⟩, len - 1)

/-- `Scoping::pop_locals`: truncate the innermost scope by `count` (an
underflowing `len - count` is a panic). -/
def popLocals (sc : Scoping) (count : Nat) : Res Scoping :=
  match sc.scopes with
  | [] => .error .panicked
  | (m, locals) :: rest =>
    if locals.length < count then .error .panicked
    else .ok ⟨(m, locals.take (locals.length - count)) :: rest, sc.outers⟩

/-- `Scoping::get_local`: last-declared occurrence in the innermost scope. -/
def getLocal (sc : Scoping) (s : Nat) : Res (Option Nat) :=
  match sc.scopes with
  | [] => .error .panicked
  | (_, locals) :: _ => .ok (lastIdxOf locals s)

/-- Helper of `getOuter`: innermost-first scan carrying the reversed index. -/
def getOuterGo (total : Nat) (s : Nat) : List (Nat × List Nat) → Nat → Option (Nat × Nat)
  | [], _ => none
  | (_, locals) :: rest, j =>
    match lastIdxOf locals s with
    | some pos => some (total - 1 - j, pos)
    | none => getOuterGo total s rest (j + 1)

/-- `Scoping::get_outer`: find the symbol in any scope, innermost first,
reporting the scope's original level (0 = global) and position. -/
def getOuter (sc : Scoping) (s : Nat) : Option (Nat × Nat) :=
  getOuterGo sc.scopes.length s sc.scopes 0

/-- `Scoping::push_outer` onto the innermost outer list. -/
def pushOuter (sc : Scoping) (lvl pos dest : Nat) : Res Scoping :=
  match sc.outers with
  | [] => .error .panicked
  | o :: rest => .ok ⟨sc.scopes, (o ++ [⟨lvl, pos, dest⟩]) :: rest⟩

/-- `Scoping::push`: enter a fresh scope. -/
def scPush (sc : Scoping) : Scoping :=
  ⟨(0, []) :: sc.scopes, [] :: sc.outers⟩

/-- `Scoping::pop`: leave the innermost scope, yielding its high-water size
and its outer captures. -/
def scPop (sc : Scoping) : Res (Scoping × Nat × List Outer) :=
  match sc.scopes, sc.outers with
  | (m, _) :: srest, o :: orest => .ok (⟨srest, orest⟩, m, o)
  | _, _ => .error .panicked

/-- `struct Compiler`: chunk under construction, work stack of forms (head =
top), scoping state, pending argument count, quoting flag, and the next
fresh allocation id. -/
structure CState where
  chunk : Chunk
  forms : List Form
  scopes : Scoping
  argc : Nat
  quoting : Bool
  fresh : Nat
  deriving Repr

/-- `Compiler::init`. -/
def CState.start (fresh0 : Nat) (ast : Value) : CState :=
  ⟨Chunk.default, [.value ast], Scoping.start, 0, false, fresh0⟩

/-- `Compiler::emit`. -/
def emit (st : CState) (op : Op) : CState :=
  { st with chunk := { st.chunk with ops := st.chunk.ops ++ [op] } }

/-- `Compiler::get_const_idx`: index of a `PartialEq`-equal constant, or
append; the index must fit a `u16`. -/
def getConstIdx (ch : Chunk) (v : Value) : Res (Chunk × Nat) :=
  match ch.consts.findIdx? (fun x => veq x v) with
  | some i =>
    if 65535 < i then .error (.msg ("Too many constants in the constants table"))
    else .ok (ch, i)
  | none =>
    let i := ch.consts.length
    if 65535 < i then .error (.msg ("Too many constants in the constants table"))
    else .ok ({ ch with consts := ch.consts ++ [v] }, i)

/-- `Compiler::push`: emit a `Push` of the value's constant index. -/
def pushC (st : CState) (v : Value) : Res CState := do
  let r ← getConstIdx st.chunk v
  .ok { st with chunk := { r.1 with ops := r.1.ops ++ [Op.push r.2] } }

/-- `Compiler::is_last_exp`: the work stack is transparent for `IfThen`,
`IfElse` and `Let`, a `Return` marks tail position, anything else does not. -/
def isLastExp : List Form → Bool
  | [] => true
  | .ifThen _ _ _ :: rest => isLastExp rest
  | .ifElse _ _ :: rest => isLastExp rest
  | .letF _ :: rest => isLastExp rest
  | .retF _ :: _ => true
  | _ :: _ => false

/-- `Compiler::set_argc`: stores `argc - 1` (a `u8` subtraction; `argc = 0`
cannot reach it). -/
def setArgc (st : CState) (a : Nat) : Res CState :=
  if a = 0 then .error .panicked
  else .ok { st with argc := a - 1 }

/-- `Compiler::apply`: `Tailcall` in tail position, else `Call`. -/
def applyOp (st : CState) : CState :=
  if isLastExp st.forms then emit st (.tailcall st.argc)
  else emit st (.call st.argc)

/-- `Compiler::eval_symbol`: local slot, else outer capture into a new local,
else late-bound global lookup. -/
def evalSymbol (st : CState) (s : Nat) : Res CState := do
  match ← getLocal st.scopes s with
  | some off =>
    if 255 < off then .error .panicked
    else .ok (emit st (.load off))
  | none =>
    match getOuter st.scopes s with
    | some lp => do
      let r ← pushLocal st.scopes s
      let sc ← pushOuter r.1 lp.1 lp.2 r.2
      .ok (emit { st with scopes := sc } (.load r.2))
    | none => .ok (emit st (.lookUp s))

/-- `Compiler::register_binding`: declare the local and emit `Store`. -/
def registerBinding (st : CState) (s : Nat) : Res CState := do
  let r ← pushLocal st.scopes s
  .ok (emit { st with scopes := r.1 } (.store r.2))

/-- The argument-declaration loop of the `fn` branch of `eval_list`. -/
def declareArgs (sc : Scoping) : List Value → Res Scoping
  | [] => .ok sc
  | .symbol s :: rest => do
    let r ← pushLocal sc s
    declareArgs r.1 rest
  | _ :: _ => .error (.msg ("Only symbols can be used as args in fn."))

/-- The `rchunks(2)` loop of the `let` branch: turn the binding list into
work-stack entries, failing on a non-symbol key. -/
def bindingForms : List Value → Res (List Form)
  | [] => .ok []
  | .symbol s :: v :: rest => do
    let fs ← bindingForms rest
    .ok (.value v :: .binding s :: fs)
  | _ :: _ :: _ => .error (.msg ("A binding must consist of a symbol and an expression"))
  | _ :: [] => .error .panicked

/-- `Compiler::eval_list`: dispatch a non-empty list form. -/
def evalList (st : CState) (id : Nat) (l : List Value) : Res CState := do
  if 255 < l.length then
    .error (.msg ("A function cannot have more than 254 parameters."))
  else if st.quoting then do
    let v0 ← vIdx l 0
    .ok { st with forms := .value v0 :: .listF id l 0 :: st.forms }
  else
    match l.get? 0 with
    | none => .error .panicked
    | some h =>
      let dflt : Res CState :=
        .ok { st with forms := .listF id l 0 :: .applyF :: st.forms }
      match h with
      | .symbol s =>
        if s = symId "do" then
          if l.length < 2 then .error (.msg ("A do form must contains at least 1 parameter"))
          else .ok { st with forms := .doF id l 1 :: st.forms }
        else if s = symId "fn" then
          if l.length ≠ 3 then .error (.msg ("A fn form must contains 2 parameters"))
          else do
            let sc := scPush st.scopes
            match ← vIdx l 1 with
            | .list _ args => do
              let parent := st.chunk
              if 255 < args.length then .error .panicked
              else do
                let sc ← declareArgs sc args
                let body ← vIdx l 2
                .ok { st with
                  chunk := { Chunk.default with arity := args.length },
                  scopes := sc,
                  forms := .value body :: .retF parent :: st.forms }
            | _ => .error (.msg ("fn's first parameter must be a list"))
        else if s = symId "def" then
          if l.length < 2 then .error (.msg ("A def form must have 2 parameters"))
          else do
            let v1 ← vIdx l 1
            let st ← pushC st v1
            let v2 ← vIdx l 2
            .ok { st with forms := .value v2 :: .defineF :: st.forms }
        else if s = symId "if" then
          if l.length ≠ 4 then .error (.msg ("An if form must have 3 parameters"))
          else do
            let cond ← vIdx l 1
            .ok { st with forms := .value cond :: .ifCond id l :: st.forms }
        else if s = symId "let" then
          if l.length ≠ 3 then .error (.msg ("A let form must have 2 parameters"))
          else do
            match ← vIdx l 1 with
            | .list _ bindings =>
              if bindings.length % 2 = 1 then
                .error (.msg ("Bindings must have an even number of bindings"))
              else do
                let body ← vIdx l 2
                let bf ← bindingForms bindings
                .ok { st with forms :=
                  bf ++ (.value body :: .letF (bindings.length / 2) :: st.forms) }
            | _ => .error (.msg ("A let form must have a list of bindings"))
        else if s = symId "=" then
          if l.length ≠ 3 then .error (.msg ("A = form must have 2 parameters"))
          else do
            let a ← vIdx l 1
            let b ← vIdx l 2
            if isConst a = isConst b then
              pushC st (.bool (veq a b))
            else if isConst a then do
              let r ← getConstIdx st.chunk a
              .ok { st with
                chunk := r.1,
                forms := .value b :: .equalConst r.2 :: st.forms }
            else if isConst b then do
              let r ← getConstIdx st.chunk b
              .ok { st with
                chunk := r.1,
                forms := .value a :: .equalConst r.2 :: st.forms }
            else
              .ok { st with forms := .value b :: .value a :: .equalF :: st.forms }
        else if s = symId "+" then
          match l.length with
          | 1 => do
            let r ← getConstIdx st.chunk (.number 0)
            .ok (emit { st with chunk := r.1 } (.push r.2))
          | 2 => do
            let v1 ← vIdx l 1
            .ok { st with forms := .value v1 :: st.forms }
          | _ => .ok { st with forms := .addMany id l 1 :: st.forms }
        else if s = symId "quote" then
          if l.length ≠ 2 then .error (.msg ("'quote' require only 1 value"))
          else do
            let v1 ← vIdx l 1
            pushC st v1
        else if s = symId "quasiquote" then
          if l.length ≠ 2 then .error (.msg ("'quasiquote' require only 1 value"))
          else do
            let v1 ← vIdx l 1
            .ok { st with
              quoting := true,
              forms := .value v1 :: .quotingF :: st.forms }
        else dflt
      | _ => dflt

/-- `Compiler::eval_next_in_list`. -/
def evalNextInList (st : CState) (id : Nat) (l : List Value) (idx : Nat) : Res CState := do
  let item ← vIdx l idx
  .ok { st with forms := .value item :: .listF id l (idx + 1) :: st.forms }

/-- `Compiler::eval_next_in_do`: re-queue the rest, `Pop` between values. -/
def evalNextInDo (st : CState) (id : Nat) (l : List Value) (idx : Nat) : Res CState := do
  let item ← vIdx l idx
  let st := if l.length - 1 > idx then { st with forms := .doF id l (idx + 1) :: st.forms } else st
  let st := if 1 < idx then emit st .pop else st
  .ok { st with forms := .value item :: st.forms }

/-- `Compiler::eval_next_in_add`: fold constants into `AddConst`, compile the
rest with `Add`. -/
def evalNextInAdd (st : CState) (id : Nat) (l : List Value) (idx : Nat) : Res CState := do
  if idx = 1 then do
    let item ← vIdx l idx
    .ok { st with forms := .value item :: .addMany id l (idx + 1) :: st.forms }
  else if idx < l.length then do
    let item ← vIdx l idx
    let st := { st with forms := .addMany id l (idx + 1) :: st.forms }
    if isConst item then do
      let r ← getConstIdx st.chunk item
      .ok (emit { st with chunk := r.1 } (.addConst r.2))
    else
      .ok { st with forms := .value item :: .addF :: st.forms }
  else .ok st

/-- `Compiler::eval_then_branch`: stash the ops so far, compile the then
branch into a fresh buffer. -/
def evalThenBranch (st : CState) (id : Nat) (l : List Value) : Res CState := do
  let branch ← vIdx l 2
  .ok { st with
    chunk := { st.chunk with ops := [] },
    forms := .value branch :: .ifThen id l st.chunk.ops :: st.forms }

/-- `Compiler::eval_else_branch`. -/
def evalElseBranch (st : CState) (l : List Value) (saved : List Op) : Res CState := do
  let branch ← vIdx l 3
  .ok { st with
    chunk := { st.chunk with ops := [] },
    forms := .value branch :: .ifElse saved st.chunk.ops :: st.forms }

/-- `Compiler::combine_branches`: stitch `CondJmp(then_len + 1)`, the then
ops, a `Jmp(else_len)` (or `Return` in tail position), then the else ops. -/
def combineBranches (st : CState) (saved thenB : List Op) : Res CState :=
  let elseB := st.chunk.ops
  let thenJump := thenB.length + 1
  if 65535 < thenJump then .error (.msg ("Then branch jump is too big."))
  else if 65535 < elseB.length then .error (.msg ("Else branch jump is too big."))
  else
    let tailOp := if isLastExp st.forms then Op.ret else Op.jmp elseB.length
    .ok { st with chunk := { st.chunk with
      ops := saved ++ [Op.condJmp thenJump] ++ thenB ++ [tailOp] ++ elseB } }

/-- `Compiler::wrap_fn`: close the function's chunk, restore the parent, and
push a `Func` constant (or a `Closure` constant plus the `Closure` op when
there are outer captures). The new shared value takes a fresh id. -/
def wrapFn (st : CState) (parent : Chunk) : Res CState := do
  let st := emit st .ret
  let r ← scPop st.scopes
  let finished : Chunk := { st.chunk with scopeSize := r.2.1 }
  let st := { st with scopes := r.1, chunk := parent, fresh := st.fresh + 1 }
  if r.2.2.isEmpty then
    pushC st (.func st.fresh (List.replicate finished.scopeSize Value.nil)
      finished.ops finished.consts finished.scopeSize finished.arity)
  else do
    let st ← pushC st (.closure st.fresh r.2.2
      finished.ops finished.consts finished.scopeSize finished.arity)
    .ok (emit st .closure)

/-- One step of `fn compile`'s work-stack loop: either the loop is finished
(`Compiler::chunk` seals the chunk) or one form is processed. -/
inductive StepRes where
  | done (ch : Chunk)
  | next (st : CState)

/-- One iteration of the `while let Some(form)` loop of `fn compile`,
including the final `Compiler::chunk()` when the stack is empty. -/
def compStep (st : CState) : Res StepRes :=
  match st.forms with
  | [] => do
    let st := emit st .ret
    let r ← scPop st.scopes
    .ok (.done { st.chunk with scopeSize := r.2.1 })
  | f :: rest =>
    let st := { st with forms := rest }
    match f with
    | .value v =>
      match v with
      | .list id elems =>
        if elems.isEmpty then .next <$> pushC st (.list id elems)
        else .next <$> evalList st id elems
      | .symbol s => .next <$> evalSymbol st s
      | atom => .next <$> pushC st atom
    | .listF id l idx =>
      if idx < l.length then .next <$> evalNextInList st id l idx
      else .next <$> setArgc st idx
    | .applyF => .ok (.next (applyOp st))
    | .ifCond id l => .next <$> evalThenBranch st id l
    | .ifThen _ l saved => .next <$> evalElseBranch st l saved
    | .ifElse saved thenB => .next <$> combineBranches st saved thenB
    | .addMany id l idx => .next <$> evalNextInAdd st id l idx
    | .addF => .ok (.next (emit st .add))
    | .equalConst k => .ok (.next (emit st (.eqConst k)))
    | .equalF => .ok (.next (emit st .eq))
    | .doF id l idx => .next <$> evalNextInDo st id l idx
    | .defineF => .ok (.next (emit st .define))
    | .retF parent => .next <$> wrapFn st parent
    | .letF n => do
      let sc ← popLocals st.scopes n
      .ok (.next { st with scopes := sc })
    | .binding s => .next <$> registerBinding st s
    | .quotingF => .ok (.next st)

/-- `fn compile` on fuel: `none` means the fuel ran out. -/
def compileLoop : Nat → CState → Option (Res Chunk)
  | 0, _ => none
  | fuel + 1, st =>
    match compStep st with
    | .error e => some (.error e)
    | .ok (.done ch) => some (.ok ch)
    | .ok (.next st') => compileLoop fuel st'

/-- Compile one top-level value, drawing fresh allocation ids from
`fresh0` upward. -/
def compile (fuel fresh0 : Nat) (ast : Value) : Option (Res Chunk) :=
  compileLoop fuel (CState.start fresh0 ast)

/-! ## The virtual machine (`vm.rs`)

`CallFrame` keeps the running chunk's ops and consts (the source keeps raw
pointers into them) plus the program counter and `ret`. The saved-frame
stack `calls` is kept bottom-first, matching the absolute indexing
`callframes[level - 1]` of `ZapFn::from_closure`. Native functions are
interpreted by a parameter `natF` keyed by the native's allocation id; no
settled claim executes one. Unchecked accesses (`get_unchecked`, raw
pointer arithmetic, `unwrap`) become `panicked` when out of bounds. -/

/-- `vm.rs` `struct CallFrame`. -/
structure Frame where
  ops : List Op
  consts : List Value
  pc : Nat
  ret : Nat
  deriving Repr

/-- `struct VmState` plus the environment the `run` loop threads and a fresh
allocation counter for `Arc`s created at runtime (`Closure` promotion). -/
structure VmState where
  frame : Frame
  stack : List Value
  calls : List Frame
  env : EnvT
  fresh : Nat

/-- `stack.get_unchecked(i)`. -/
def stackGet (s : List Value) (i : Nat) : Res Value :=
  match s.get? i with
  | some v => .ok v
  | none => .error .panicked

/-- Writing `stack[i]`, a panic (or worse) when out of bounds. -/
def stackSet (s : List Value) (i : Nat) (v : Value) : Res (List Value) :=
  if i < s.length then .ok (s.set i v) else .error .panicked

/-- `ptr::swap_nonoverlapping(base + a, base + b, cnt)` on in-range,
disjoint index ranges. -/
def swapRanges (s : List Value) (a b cnt : Nat) : List Value :=
  (List.range cnt).foldl (fun acc k =>
    match acc.get? (a + k), acc.get? (b + k) with
    | some x, some y => (acc.set (a + k) y).set (b + k) x
    | _, _ => acc) s

/-- `VmState::call`. `ret = len - argc`; the callee is taken from
`stack[ret]` (leaving `Nil`); a `Func` gets a new frame and its template
locals beyond the arguments; a native runs on `stack[ret+1..]` and its
result replaces the callee slot. -/
def vmCall (natF : Nat → List Value → Res Value) (vm : VmState) (argc : Nat) :
    Res VmState := do
  if argc = 0 ∨ vm.stack.length < argc then .error .panicked
  else
    let ret := vm.stack.length - argc
    let head ← stackGet vm.stack ret
    let stack ← stackSet vm.stack ret .nil
    match head with
    | .func _ locals fops fconsts _ _ =>
      if locals.length < argc - 1 then .error .panicked
      else .ok { vm with
        calls := vm.calls ++ [vm.frame],
        frame := ⟨fops, fconsts, 0, ret⟩,
        stack := stack ++ locals.drop (argc - 1) }
    | .funcNative fid _ => do
      let out ← natF fid (stack.drop (ret + 1))
      .ok { vm with stack := stack.take ret ++ [out] }
    | _ => .error (.msg ("Cannot call a non-function"))

/-- `VmState::tailcall`. The callee is taken at `args_base = len - argc`;
for a `Func` the frame keeps the caller's `ret`, `argc - 1` elements are
swapped from `ret + args_base + 1` down to `ret`, the stack is truncated to
`ret + argc - 1` and extended with the template locals; a native's result
lands at the caller's `ret`. -/
def vmTailcall (natF : Nat → List Value → Res Value) (vm : VmState) (argc : Nat) :
    Res VmState := do
  if argc = 0 ∨ vm.stack.length < argc then .error .panicked
  else
    let base := vm.stack.length - argc
    let head ← stackGet vm.stack base
    let stack ← stackSet vm.stack base .nil
    match head with
    | .func _ locals fops fconsts _ _ =>
      let ret := vm.frame.ret
      let cnt := argc - 1
      let src := ret + base + 1
      if locals.length < cnt then .error .panicked
      else if cnt ≠ 0 ∧ (src + cnt > stack.length ∨ ret + cnt > src) then
        .error .panicked
      else
        let stack := if cnt = 0 then stack else swapRanges stack ret src cnt
        .ok { vm with
          frame := ⟨fops, fconsts, 0, ret⟩,
          stack := stack.take (ret + cnt) ++ locals.drop cnt }
    | .funcNative fid _ => do
      let out ← natF fid (stack.drop (base + 1))
      let t := stack.take (vm.frame.ret + 1)
      if t.isEmpty then .error .panicked
      else .ok { vm with stack := t.dropLast ++ [out] }
    | _ => .error (.msg ("Cannot call a non-function"))

/-- `ZapFn::from_closure`: build the `Func`'s locals by copying captured
stack slots; `base` is 0 at level 0, else the `ret` of the saved frame at
`level - 1`. The unchecked `callframes` read and the raw `ptr::write` into
`locals` panic when out of range. -/
def fromClosure (calls : List Frame) (stack : List Value) (outers : List Outer)
    (fscope : Nat) : Res (List Value) := do
  let mut locals := List.replicate fscope Value.nil
  for o in outers do
    let base ←
      if o.level = 0 then pure 0
      else
        match calls.get? (o.level - 1) with
        | some fr => pure fr.ret
        | none => .error .panicked
    let val ← stackGet stack (base + o.position)
    if o.dest < locals.length then
      locals := locals.set o.dest val
    else
      throw .panicked
  .ok locals

/-- One dispatch step of `fn run`'s loop: fetch the op at `pc`, advance,
execute. `Sum.inl` is the final value of the outermost `Return`. -/
def vmStep (natF : Nat → List Value → Res Value) (vm : VmState) :
    Res (Sum Value VmState) := do
  match vm.frame.ops.get? vm.frame.pc with
  | none => .error .panicked
  | some op =>
    let vm := { vm with frame := { vm.frame with pc := vm.frame.pc + 1 } }
    match op with
    | .push k =>
      match vm.frame.consts.get? k with
      | some v => .ok (.inr { vm with stack := vm.stack ++ [v] })
      | none => .error .panicked
    | .call a => .inr <$> vmCall natF vm a
    | .tailcall a => .inr <$> vmTailcall natF vm a
    | .condJmp n =>
      match vm.stack.getLast? with
      | none => .error .panicked
      | some v =>
        let vm := { vm with stack := vm.stack.dropLast }
        if isTruthy v then .ok (.inr vm)
        else .ok (.inr { vm with frame := { vm.frame with pc := vm.frame.pc + n } })
    | .jmp n => .ok (.inr { vm with frame := { vm.frame with pc := vm.frame.pc + n } })
    | .lookUp s => do
      let v ← envGet vm.env s
      .ok (.inr { vm with stack := vm.stack ++ [v] })
    | .define =>
      if vm.stack.length < 2 then .error .panicked
      else do
        let key ← stackGet vm.stack (vm.stack.length - 2)
        let v ← stackGet vm.stack (vm.stack.length - 1)
        let env ← envSet vm.env key v
        .ok (.inr { vm with
          env := env,
          stack := vm.stack.take (vm.stack.length - 2) ++ [v] })
    | .pop =>
      if vm.stack.isEmpty then .error .panicked
      else .ok (.inr { vm with stack := vm.stack.dropLast })
    | .load i => do
      let v ← stackGet vm.stack (vm.frame.ret + i)
      .ok (.inr { vm with stack := vm.stack ++ [v] })
    | .store i =>
      match vm.stack.getLast? with
      | none => .error .panicked
      | some v => do
        let s ← stackSet vm.stack.dropLast (vm.frame.ret + i) v
        .ok (.inr { vm with stack := s })
    | .addConst k =>
      match vm.stack.getLast?, vm.frame.consts.get? k with
      | some a, some b => do
        let r ← vadd a b
        .ok (.inr { vm with stack := vm.stack.dropLast ++ [r] })
      | _, _ => .error .panicked
    | .add =>
      if vm.stack.length < 2 then .error .panicked
      else do
        let a ← stackGet vm.stack (vm.stack.length - 1)
        let b ← stackGet vm.stack (vm.stack.length - 2)
        let r ← vadd a b
        .ok (.inr { vm with stack := vm.stack.take (vm.stack.length - 2) ++ [r] })
    | .eqConst k =>
      match vm.stack.getLast?, vm.frame.consts.get? k with
      | some a, some b =>
        .ok (.inr { vm with stack := vm.stack.dropLast ++ [.bool (veq a b)] })
      | _, _ => .error .panicked
    | .eq =>
      if vm.stack.length < 2 then .error .panicked
      else do
        let a ← stackGet vm.stack (vm.stack.length - 1)
        let b ← stackGet vm.stack (vm.stack.length - 2)
        .ok (.inr { vm with
          stack := vm.stack.take (vm.stack.length - 2) ++ [.bool (veq a b)] })
    | .closure =>
      match vm.stack.getLast? with
      | none => .error .panicked
      | some top =>
        match top with
        | .closure _ outers fops fconsts fscope farity => do
          let taken := vm.stack.set (vm.stack.length - 1) .nil
          let locals ← fromClosure vm.calls taken outers fscope
          .ok (.inr { vm with
            fresh := vm.fresh + 1,
            stack := taken.set (taken.length - 1)
              (.func vm.fresh locals fops fconsts fscope farity) })
        | _ => .error (.msg ("A Closure was expected at the top of the stack."))
    | .ret =>
      match vm.calls.getLast? with
      | none =>
        match vm.stack.getLast? with
        | none => .error .panicked
        | some v => .ok (.inl v)
      | some fr =>
        if vm.frame.ret < vm.stack.length then
          let tos := vm.stack.length - 1
          let s := (vm.stack.set tos ((vm.stack.get? vm.frame.ret).getD .nil)).set
            vm.frame.ret ((vm.stack.get? tos).getD .nil)
          .ok (.inr { vm with
            calls := vm.calls.dropLast,
            frame := fr,
            stack := s.take (vm.frame.ret + 1) })
        else .error .panicked

/-- `fn run`'s dispatch loop on fuel. -/
def runLoop (natF : Nat → List Value → Res Value) : Nat → VmState → Option (Res Value)
  | 0, _ => none
  | fuel + 1, vm =>
    match vmStep natF vm with
    | .error e => some (.error e)
    | .ok (.inl v) => some (.ok v)
    | .ok (.inr vm') => runLoop natF fuel vm'

/-- `fn run`: frame at the chunk's start, stack pre-sized with `Nil` locals. -/
def run (natF : Nat → List Value → Res Value) (fuel : Nat) (ch : Chunk) (env : EnvT)
    (fresh0 : Nat) : Option (Res Value) :=
  runLoop natF fuel
    ⟨⟨ch.ops, ch.consts, 0, 0⟩, List.replicate ch.scopeSize Value.nil, [], env, fresh0⟩

/-- A native-function table for executions that must not reach one. -/
def noNat : Nat → List Value → Res Value := fun _ _ => .error .panicked

/-- Compile a top-level value and run the resulting chunk, the composition
exercised by the end-to-end claims. -/
def evalTop (cfuel rfuel : Nat) (ast : Value) (env : EnvT) : Option (Res Value) :=
  match compile cfuel 100 ast with
  | some (.ok ch) => run noNat rfuel ch env 1000
  | some (.error e) => some (.error e)
  | none => none

/-! ## Concrete programs and auxiliary predicates used by the claims -/

/-- The symbol value of a reserved name. -/
def symV (s : String) : Value := Value.symbol (symId s)

/-- Claim C1's program `((fn (x) (+ x x x)) 12)`; `x` is the interned
symbol 50, list literals get distinct allocation ids. -/
def astApp3x : Value :=
  .list 1 [.list 2 [symV "fn", .list 3 [.symbol 50],
    .list 4 [symV "+", .symbol 50, .symbol 50, .symbol 50]], .number 12]

/-- The chunk the compiler actually produces for `astApp3x`. -/
def chApp3x : Chunk :=
  ⟨[.push 0, .push 1, .tailcall 1, .ret],
   [.func 101 [.nil] [.load 0, .load 0, .add, .load 0, .add, .ret] [] 1 1,
    .number 12], 0, 0⟩

/-- Claim C2's probe program `((fn (x) x) (fn (y) y) 7)`. -/
def astTwoFns : Value :=
  .list 1 [.list 2 [symV "fn", .list 3 [.symbol 50], .symbol 50],
    .list 4 [symV "fn", .list 5 [.symbol 51], .symbol 51], .number 7]

/-- The chunk compiled from `astTwoFns`; its only `Tailcall` is in the
top-level ops, the two function constants contain none. -/
def chTwoFns : Chunk :=
  ⟨[.push 0, .push 1, .push 2, .tailcall 2, .ret],
   [.func 101 [.nil] [.load 0, .ret] [] 1 1,
    .func 102 [.nil] [.load 0, .ret] [] 1 1,
    .number 7], 0, 0⟩

/-- Claim C2's program transformation: every `Tailcall(a)` becomes `Call(a)`
followed by `Return`. -/
def replaceTailcalls (ops : List Op) : List Op :=
  ops.flatMap (fun op => match op with
    | .tailcall a => [.call a, .ret]
    | o => [o])

/-- `(= x y)` on two distinct non-constant symbols (ids 50, 51). -/
def astEqSyms : Value := .list 1 [symV "=", .symbol 50, .symbol 51]

/-- `(= x x)` on the same non-constant symbol. -/
def astEqSame : Value := .list 1 [symV "=", .symbol 50, .symbol 50]

/-- Claim C5's program `(quasiquote (1 2 3))`. -/
def astQuasi123 : Value :=
  .list 1 [symV "quasiquote", .list 2 [.number 1, .number 2, .number 3]]

/-- A sibling form after a quasiquote: `(do (quasiquote (1)) (+ 1 2))`. -/
def astQuasiSibling : Value :=
  .list 1 [symV "do", .list 2 [symV "quasiquote", .list 3 [.number 1]],
    .list 4 [symV "+", .number 1, .number 2]]

/-- Claim C6's failing input `(def x)`. -/
def astDefX : Value := .list 1 [symV "def", .symbol 50]

/-- The four-element form `(def x 1 2)`. -/
def astDef4 : Value := .list 1 [symV "def", .symbol 50, .number 1, .number 2]

/-- Claim C7's form `(if c t e)`. -/
def ifAst (c t e : Value) : Value := .list 1 [symV "if", c, t, e]

/-- Claim C7's non-tail context `(+ (if c t e) 1)`. -/
def plusIfAst (c t e : Value) : Value :=
  .list 1 [symV "+", .list 2 [symV "if", c, t, e], .number 1]

/-- A literal atom as the reader can produce one: `nil`, a boolean, a number
or a string. On these, `veq` coincides with structural equality. -/
def isAtomLit : Value → Bool
  | .nil => true
  | .bool _ => true
  | .number _ => true
  | .str _ => true
  | _ => false

/-- The parent chunks saved in `Return` forms on the compile work stack. -/
def retChunks (fs : List Form) : List Chunk :=
  fs.filterMap (fun f => match f with | .retF ch => some ch | _ => none)

/-- Claim C8's invariant on a constant pool: no two entries are
`PartialEq`-equal. -/
def constsOk (l : List Value) : Prop :=
  l.Pairwise (fun a b => veq a b = false)

/-- The compile-state invariant behind claim C8: the chunk under
construction and every saved parent chunk have `PartialEq`-distinct pools. -/
def invC8 (st : CState) : Prop :=
  constsOk st.chunk.consts ∧ ∀ ch ∈ retChunks st.forms, constsOk ch.consts

/-- The C8 condition on the work stack: every saved parent pool is
duplicate-free. -/
def formsOk (fs : List Form) : Prop := ∀ ch ∈ retChunks fs, constsOk ch.consts

/-- The C8 invariant on a compile-loop step result. -/
def stepOk : StepRes → Prop
  | .done ch => constsOk ch.consts
  | .next st => constsOk st.chunk.consts ∧ formsOk st.forms

/-- Claim C8's repetition witness `(do (quote (1)) (quote (1)))`: two
structurally equal but separately allocated list literals. -/
def astTwoQuotes : Value :=
  .list 1 [symV "do", .list 2 [symV "quote", .list 3 [.number 1]],
    .list 4 [symV "quote", .list 5 [.number 1]]]

/-- Claim C7's compound-condition program `(if (= 1 2) 10 20)`. -/
def astIfEq : Value :=
  .list 1 [symV "if", .list 2 [symV "=", .number 1, .number 2], .number 10, .number 20]

/-- Claim C7's compound program `(if (+ 1 2) (+ 1 1) 2)`: condition and
then-branch are themselves `+` forms. -/
def astIfAdd : Value :=
  .list 1 [symV "if", .list 2 [symV "+", .number 1, .number 2],
    .list 3 [symV "+", .number 1, .number 1], .number 2]

/-! ## Theorems -/

theorem tokStr_rest_le (r : Reader) (e : Bool) (cs : List Char) :
    (tokStr r e cs).2.length ≤ cs.length := by
  induction cs generalizing r e with
  | nil => simp [tokStr]
  | cons c cs ih =>
    simp only [tokStr]
    split
    · exact le_trans (ih _ _) (Nat.le_succ _)
    · split
      · simp
      · split
        · exact le_trans (ih _ _) (Nat.le_succ _)
        · split
          · exact le_trans (ih _ _) (Nat.le_succ _)
          · exact le_trans (ih _ _) (Nat.le_succ _)

theorem dropLine_rest_le (cs : List Char) : (dropLine cs).2.length ≤ cs.length := by
  induction cs with
  | nil => simp [dropLine]
  | cons c cs ih =>
    simp only [dropLine]
    split
    · simp
    · exact le_trans ih (Nat.le_succ _)

/-- Claim C1: reading `((fn (x) (+ x x x)) 12)`, compiling and running does
NOT return `Number(36.0)`. Because `set_argc` stores `list.len() - 1`, the
emitted op is `Tailcall(1)` and the VM looks for the callee at stack index
`len - 1`, which holds the argument `12`, so `run` fails with
`Cannot call a non-function` instead of producing 36. -/
theorem c1_apply_misses_callee :
    compile 100 100 astApp3x = some (.ok chApp3x) ∧
    evalTop 100 100 astApp3x [] = some (.error (.msg ("Cannot call a non-function"))) :=
  ⟨rfl, rfl⟩

/-- Claim C2: replacing every `Tailcall(a)` by `Call(a)` followed by `Return`
does not preserve the final value. For the compiled program
`((fn (x) x) (fn (y) y) 7)` (whose only `Tailcall` is top-level) the original
chunk yields `Number 7` while the transformed chunk yields `Nil`: `tailcall`
moves arguments down to the caller's `ret` so slot 0 of the callee holds `7`,
whereas `call` leaves them one slot higher and `Load(0)` reads the `Nil` left
in the taken callee slot. -/
theorem c2_tailcall_call_divergence :
    compile 100 100 astTwoFns = some (.ok chTwoFns) ∧
    run noNat 100 chTwoFns [] 1000 = some (.ok (.number 7)) ∧
    run noNat 100 { chTwoFns with ops := replaceTailcalls chTwoFns.ops } [] 1000
      = some (.ok .nil) :=
  ⟨rfl, rfl, rfl⟩

/-- Claim C3: tokenize-chunk invariance fails on a split between the
characters of `~@`. Feeding `"~@a "` at once yields
`[SpliceUnquote, Atom "a"]`, but feeding `"~"` then `"@a "` yields
`[SpliceUnquote, Atom "~a"]`: the pending-`~` continuation pushes the
`SpliceUnquote` token without truncating the token buffer, so the stale `~`
is prepended to the next atom. -/
theorem c3_tokenize_split_divergence :
    (tokenize 8 Reader.init (String.toList ("~@a "))).map Reader.tokens
      = some [Token.spliceUnquote, Token.atom ['a']] ∧
    ((tokenize 4 Reader.init (String.toList ("~"))).bind
        (fun r => tokenize 8 r (String.toList ("@a ")))).map Reader.tokens
      = some [Token.spliceUnquote, Token.atom ['~', 'a']] :=
  ⟨rfl, rfl⟩

/-- Claim C4: with NEITHER side a compile-time constant the compiler does not
emit the code of both sides followed by `Eq`: the first branch of the `=`
form fires whenever `is_const(a) == is_const(b)`, so `(= x y)` on two
symbols is constant-folded to `Push(Bool(x == y))` evaluated on the AST
(`false` for distinct symbols, `true` for the same symbol), and no `LookUp`
or `Eq` is emitted at all. -/
theorem c4_equal_folds_nonconstants :
    compile 100 100 astEqSyms = some (.ok ⟨[.push 0, .ret], [.bool false], 0, 0⟩) ∧
    compile 100 100 astEqSame = some (.ok ⟨[.push 0, .ret], [.bool true], 0, 0⟩) :=
  ⟨rfl, rfl⟩

/-- Claim C5: `(quasiquote (1 2 3))` does not evaluate to the list
`(1 2 3)`. Under quoting the compiler pushes each element (the head twice)
instead of a list constant, so the chunk leaves `1 1 2 3` on the stack and
`run` returns the top, `Number 3`. The `Quoting` form handler is an empty
`TODO`, so quoting mode persists: in `(do (quasiquote (1)) (+ 1 2))` the
sibling `(+ 1 2)` also compiles in quoting mode, emitting `LookUp` of the
`+` symbol (twice) rather than the normal `+` code. -/
theorem c5_quasiquote_result :
    compile 100 100 astQuasi123 = some (.ok ⟨[.push 0, .push 0, .push 1, .push 2, .ret],
      [.number 1, .number 2, .number 3], 0, 0⟩) ∧
    evalTop 100 100 astQuasi123 [] = some (.ok (.number 3)) ∧
    compile 100 100 astQuasiSibling = some (.ok
      ⟨[.push 0, .push 0, .pop, .lookUp 9, .lookUp 9, .push 0, .push 1, .ret],
       [.number 1, .number 2], 0, 0⟩) :=
  ⟨rfl, rfl, rfl⟩

/-- Claim C6: compiling the two-element form `(def x)` does not return an
`Err`: the arity guard only rejects `len < 2`, after which `list[2]` is an
out-of-bounds index of the missing value expression, a panic. A four-element
`(def x 1 2)` is likewise not rejected; the extra argument is ignored. -/
theorem c6_def_missing_value_panics :
    compile 100 100 astDefX = some (.error .panicked) ∧
    compile 100 100 astDef4 = some (.ok ⟨[.push 0, .push 1, .define, .ret],
      [.symbol 50, .number 1], 0, 0⟩) :=
  ⟨rfl, rfl⟩

/-- Claim C9: every non-empty list of more than 255 elements is rejected by
the guard at the top of `eval_list` with the function-parameter error
message — as a direct form, hence equally as a call or any special form
(the guard precedes the head dispatch), and also under quoting (the guard
precedes the quoting check, shown here for a list inside `quasiquote`). -/
theorem c9_list_cap :
    (∀ (st : CState) (id : Nat) (l : List Value), 255 < l.length →
      evalList st id l
        = .error (.msg ("A function cannot have more than 254 parameters."))) ∧
    (∀ (fuel fresh0 id : Nat) (l : List Value), 255 < l.length →
      compile (fuel + 1) fresh0 (.list id l)
        = some (.error (.msg ("A function cannot have more than 254 parameters.")))) ∧
    (∀ (fuel fresh0 id1 id2 : Nat) (l : List Value), 255 < l.length →
      compile (fuel + 2) fresh0 (.list id1 [symV "quasiquote", .list id2 l])
        = some (.error (.msg ("A function cannot have more than 254 parameters.")))) := by
  have hguard : ∀ (st : CState) (id : Nat) (l : List Value), 255 < l.length →
      evalList st id l
        = .error (.msg ("A function cannot have more than 254 parameters.")) := by
    intro st id l h
    simp [evalList, h]
  refine ⟨hguard, ?_, ?_⟩
  · intro fuel fresh0 id l h
    have hne : l.isEmpty = false := by
      cases l with
      | nil => simp at h
      | cons a as => rfl
    simp [compile, compileLoop, compStep, CState.start, hne, hguard _ _ _ h]
  · intro fuel fresh0 id1 id2 l h
    have hne : l.isEmpty = false := by
      cases l with
      | nil => simp at h
      | cons a as => rfl
    have hstep1 : compStep (CState.start fresh0 (.list id1 [symV "quasiquote", .list id2 l]))
        = .ok (.next ⟨Chunk.default, [.value (.list id2 l), .quotingF],
            Scoping.start, 0, true, fresh0⟩) := by
      simp [compStep, CState.start, evalList, symV, symId, vIdx, Bind.bind, Except.bind]
    have hstep2 : compStep ⟨Chunk.default, [.value (.list id2 l), .quotingF],
        Scoping.start, 0, true, fresh0⟩
        = .error (.msg ("A function cannot have more than 254 parameters.")) := by
      simp [compStep, hne, hguard, h]
    simp [compile, compileLoop, hstep1, hstep2]

/-- Witness for claim C9 at a 256-element list of `Nil`s. -/
theorem c9_list_cap_witness :
    255 < (List.replicate 256 Value.nil).length ∧
    compile 1 0 (.list 7 (List.replicate 256 Value.nil))
      = some (.error (.msg ("A function cannot have more than 254 parameters."))) :=
  ⟨by norm_num, c9_list_cap.2.1 0 0 7 (List.replicate 256 Value.nil) (by norm_num)⟩

theorem tokMain_total (fuel : Nat) : ∀ (r : Reader) (cs : List Char),
    cs.length ≤ fuel → ∃ r2, tokMain fuel r cs = some r2 := by
  induction fuel with
  | zero =>
    intro r cs h
    have hnil : cs = [] := List.eq_nil_of_length_eq_zero (Nat.le_zero.mp h)
    subst hnil
    exact ⟨r, rfl⟩
  | succ n ih =>
    intro r cs h
    cases cs with
    | nil => exact ⟨r, rfl⟩
    | cons c cs =>
      have hcs : cs.length ≤ n := by simp only [List.length_cons] at h; omega
      rw [tokMain.eq_3, tokMainBody.eq_def]
      by_cases h1 : c = '\n'
      · rw [if_pos h1]; exact ih _ _ hcs
      rw [if_neg h1]
      by_cases h2 : c = ' ' ∨ c = '\t' ∨ c = ','
      · rw [if_pos h2]; exact ih _ _ hcs
      rw [if_neg h2]
      by_cases h3 : c = '('
      · rw [if_pos h3]; exact ih _ _ hcs
      rw [if_neg h3]
      by_cases h4 : c = ')'
      · rw [if_pos h4]; exact ih _ _ hcs
      rw [if_neg h4]
      by_cases h5 : c = '\''
      · rw [if_pos h5]; exact ih _ _ hcs
      rw [if_neg h5]
      by_cases h6 : c = '@'
      · rw [if_pos h6]; exact ih _ _ hcs
      rw [if_neg h6]
      by_cases h7 : c = '`'
      · rw [if_pos h7]; exact ih _ _ hcs
      rw [if_neg h7]
      by_cases h8 : c = '^'
      · rw [if_pos h8]
        by_cases hb : r.tokenBuf.isEmpty
        · rw [if_pos hb]; exact ih _ _ hcs
        · rw [if_neg hb]; exact ih _ _ hcs
      rw [if_neg h8]
      by_cases h9 : c = '~'
      · rw [if_pos h9]
        by_cases hb : r.tokenBuf.isEmpty
        · rw [if_pos hb]
          cases cs with
          | nil => exact ⟨_, rfl⟩
          | cons c2 rest =>
            have hrest : rest.length ≤ n := by
              simp only [List.length_cons] at hcs; omega
            split
            · rename_i r2 heq
              injection heq with hh ht
              subst ht
              exact ih _ _ hrest
            · exact ih _ _ hcs
            · exact ⟨_, rfl⟩
        · rw [if_neg hb]; exact ih _ _ hcs
      rw [if_neg h9]
      by_cases h10 : c = ';'
      · rw [if_pos h10]
        by_cases hd : (dropLine cs).1 = true
        · rw [if_pos hd]; exact ih _ _ (le_trans (dropLine_rest_le _) hcs)
        · rw [if_neg hd]; exact ⟨_, rfl⟩
      rw [if_neg h10]
      by_cases h11 : c = '"'
      · rw [if_pos h11]; exact ih _ _ (le_trans (tokStr_rest_le _ _ _) hcs)
      · rw [if_neg h11]; exact ih _ _ hcs

/-- Claim C10: for every prior reader state (a pending string literal,
comment or `~` included) and every input, `tokenize` runs to completion with
input-length fuel — its `while` loops terminate, no branch produces an error
and none can panic (`flush_token`, a plain conditional, likewise). Reader
failures can only arise in `read_ast`. -/
theorem c10_tokenizer_total (fuel : Nat) (r : Reader) (cs : List Char)
    (h : cs.length < fuel) :
    ∃ r2, tokenize fuel r cs = some r2 ∧ ∃ r3, flushToken r2 = r3 := by
  have hle : cs.length ≤ fuel := Nat.le_of_lt h
  have main : ∃ r2, tokenize fuel r cs = some r2 := by
    simp only [tokenize]
    split
    · exact tokMain_total _ _ _ (le_trans (tokStr_rest_le _ _ _) hle)
    · split
      · split
        · exact tokMain_total _ _ _ (le_trans (dropLine_rest_le _) hle)
        · exact ⟨_, rfl⟩
      · split
        · split
          · exact tokMain_total _ _ _ (by simp only [List.length_cons] at hle; omega)
          · exact tokMain_total _ _ _ hle
          · exact tokMain_total _ _ _ hle
        · exact tokMain_total _ _ _ hle
  obtain ⟨r2, h2⟩ := main
  exact ⟨r2, h2, r2 |> flushToken, rfl⟩

/-- Witness for claim C10: resuming a pending string literal whose buffer
ends in a backslash. -/
theorem c10_tokenizer_total_witness :
    (String.toList ("n\" x")).length < 6 ∧
    ∃ r2, tokenize 6 ⟨1, [], ['"', 'a', '\\']⟩ (String.toList ("n\" x")) = some r2 ∧
      ∃ r3, flushToken r2 = r3 :=
  ⟨by norm_num, c10_tokenizer_total 6 ⟨1, [], ['"', 'a', '\\']⟩ (String.toList ("n\" x"))
    (by norm_num)⟩

theorem isConst_of_atom (v : Value) (h : isAtomLit v = true) : isConst v = true := by
  cases v <;> simp_all [isAtomLit, isConst]

theorem veq_atom_eq (x v : Value) (ha : isAtomLit v = true) (h : veq x v = true) : x = v := by
  cases x <;> cases v <;> simp_all [veq, isAtomLit]

theorem veq_refl_atom (v : Value) (h : isAtomLit v = true) : veq v v = true := by
  cases v <;> simp_all [veq, isAtomLit]

theorem compStep_value_atom (ch : Chunk) (v : Value) (rest : List Form) (sc : Scoping)
    (a : Nat) (q : Bool) (f : Nat) (h : isAtomLit v = true) :
    compStep ⟨ch, .value v :: rest, sc, a, q, f⟩
      = StepRes.next <$> pushC ⟨ch, rest, sc, a, q, f⟩ v := by
  cases v <;> simp_all [compStep, isAtomLit]

theorem compStep_value_listC (ch : Chunk) (id : Nat) (elems : List Value) (rest : List Form)
    (sc : Scoping) (a : Nat) (q : Bool) (f : Nat) :
    compStep ⟨ch, .value (.list id elems) :: rest, sc, a, q, f⟩
      = if elems.isEmpty then StepRes.next <$> pushC ⟨ch, rest, sc, a, q, f⟩ (.list id elems)
        else StepRes.next <$> evalList ⟨ch, rest, sc, a, q, f⟩ id elems := rfl

theorem compStep_ifCondC (ch : Chunk) (id : Nat) (l : List Value) (rest : List Form)
    (sc : Scoping) (a : Nat) (q : Bool) (f : Nat) :
    compStep ⟨ch, .ifCond id l :: rest, sc, a, q, f⟩
      = StepRes.next <$> evalThenBranch ⟨ch, rest, sc, a, q, f⟩ id l := rfl

theorem compStep_ifThenC (ch : Chunk) (id : Nat) (l : List Value) (saved : List Op)
    (rest : List Form) (sc : Scoping) (a : Nat) (q : Bool) (f : Nat) :
    compStep ⟨ch, .ifThen id l saved :: rest, sc, a, q, f⟩
      = StepRes.next <$> evalElseBranch ⟨ch, rest, sc, a, q, f⟩ l saved := rfl

theorem compStep_ifElseC (ch : Chunk) (saved thenB : List Op)
    (rest : List Form) (sc : Scoping) (a : Nat) (q : Bool) (f : Nat) :
    compStep ⟨ch, .ifElse saved thenB :: rest, sc, a, q, f⟩
      = StepRes.next <$> combineBranches ⟨ch, rest, sc, a, q, f⟩ saved thenB := rfl

theorem compStep_doneC (ch : Chunk) (sc : Scoping) (a : Nat) (q : Bool) (f : Nat) :
    compStep ⟨ch, [], sc, a, q, f⟩
      = (do
          let r ← scPop (emit ⟨ch, [], sc, a, q, f⟩ .ret).scopes
          Except.ok (.done { (emit ⟨ch, [], sc, a, q, f⟩ .ret).chunk
            with scopeSize := r.2.1 })) := rfl

set_option maxHeartbeats 1000000 in
theorem run_if_chunk (consts : List Value) (k1 k2 k3 : Nat) (c t e : Value) (env : EnvT)
    (f : Nat) (h1 : consts[k1]? = some c) (h2 : consts[k2]? = some t)
    (h3 : consts[k3]? = some e) :
    run noNat 6 ⟨[.push k1, .condJmp 2, .push k2, .ret, .push k3, .ret], consts, 0, 0⟩ env f
      = some (.ok (if isTruthy c then t else e)) := by
  by_cases htr : isTruthy c = true
  · simp [run, runLoop, vmStep, h1, h2, h3, htr]
  · simp [run, runLoop, vmStep, h1, h2, h3, htr]


theorem getConstIdx_constsOk (ch : Chunk) (v : Value) (r : Chunk × Nat)
    (hc : constsOk ch.consts) (h : getConstIdx ch v = .ok r) :
    constsOk r.1.consts ∧ r.1.ops = ch.ops := by
  rw [getConstIdx] at h
  rcases hfi : ch.consts.findIdx? (fun x => veq x v) with _ | i
  · rw [hfi] at h
    simp only at h
    split at h
    · cases h
    · cases h
      refine ⟨?_, rfl⟩
      unfold constsOk at hc ⊢
      rw [List.pairwise_append]
      exact ⟨hc, by simp, by
        intro a ha b hb
        simp only [List.mem_singleton] at hb
        subst hb
        exact List.findIdx?_eq_none_iff.mp hfi a ha⟩
  · rw [hfi] at h
    simp only at h
    split at h
    · cases h
    · cases h
      exact ⟨hc, rfl⟩

theorem pushC_constsOk (st : CState) (v : Value) (st2 : CState)
    (hc : constsOk st.chunk.consts) (h : pushC st v = .ok st2) :
    constsOk st2.chunk.consts ∧ st2.forms = st.forms := by
  rw [pushC] at h
  rcases hg : getConstIdx st.chunk v with e | r
  · rw [hg] at h; cases h
  · rw [hg] at h
    simp only [Except.bind] at h
    cases h
    exact ⟨(getConstIdx_constsOk _ _ _ hc hg).1, rfl⟩

theorem formsOk_tail (f : Form) (fs : List Form) (h : formsOk (f :: fs)) : formsOk fs := by
  intro ch hch
  refine h ch ?_
  unfold retChunks at hch ⊢
  rw [List.filterMap_cons]
  rcases hm : (match f with | Form.retF ch => some ch | _ => none) with _ | ch2
  · rw [hm]
    exact hch
  · rw [hm]
    exact List.mem_cons_of_mem _ hch

theorem bindOk {α β : Type} {m : Res α} {f : α → Res β} {b : β}
    (h : m >>= f = .ok b) : ∃ a, m = .ok a ∧ f a = .ok b := by
  cases m with
  | error e => simp [Bind.bind, Except.bind] at h
  | ok a => exact ⟨a, rfl, by simpa [Bind.bind, Except.bind] using h⟩

theorem evalSymbol_keeps (st st2 : CState) (s : Nat) (h : evalSymbol st s = .ok st2) :
    st2.chunk.consts = st.chunk.consts ∧ st2.forms = st.forms := by
  rw [evalSymbol] at h
  obtain ⟨o, hg, h⟩ := bindOk h
  rcases o with _ | off
  · rcases ho : getOuter st.scopes s with _ | lp
    · rw [ho] at h
      cases h
      exact ⟨rfl, rfl⟩
    · rw [ho] at h
      obtain ⟨r, hp, h⟩ := bindOk h
      obtain ⟨sc, hq, h⟩ := bindOk h
      cases h
      exact ⟨rfl, rfl⟩
  · have h : (if 255 < off then (Except.error ZErr.panicked : Res CState)
        else Except.ok (emit st (Op.load off))) = Except.ok st2 := h
    by_cases hoff : 255 < off
    · rw [if_pos hoff] at h
      cases h
    · rw [if_neg hoff] at h
      cases h
      exact ⟨rfl, rfl⟩

theorem registerBinding_keeps (st st2 : CState) (s : Nat)
    (h : registerBinding st s = .ok st2) :
    st2.chunk.consts = st.chunk.consts ∧ st2.forms = st.forms := by
  rw [registerBinding] at h
  obtain ⟨r, hp, h⟩ := bindOk h
  cases h
  exact ⟨rfl, rfl⟩

theorem wrapFn_inv (st st2 : CState) (parent : Chunk)
    (hp : constsOk parent.consts) (h : wrapFn st parent = .ok st2) :
    constsOk st2.chunk.consts ∧ st2.forms = st.forms := by
  rw [wrapFn] at h
  obtain ⟨r, hs, h⟩ := bindOk h
  split at h
  · have := pushC_constsOk _ _ _ (by simpa [emit] using hp) h
    exact ⟨this.1, this.2⟩
  · obtain ⟨stp, hq, h⟩ := bindOk h
    cases h
    have := pushC_constsOk _ _ _ (by simpa [emit] using hp) hq
    exact ⟨this.1, this.2⟩

theorem retChunks_value (v : Value) (fs : List Form) :
    retChunks (.value v :: fs) = retChunks fs := rfl

theorem retChunks_listF (i : Nat) (l : List Value) (k : Nat) (fs : List Form) :
    retChunks (.listF i l k :: fs) = retChunks fs := rfl

theorem retChunks_applyF (fs : List Form) :
    retChunks (.applyF :: fs) = retChunks fs := rfl

theorem retChunks_ifCond (i : Nat) (l : List Value) (fs : List Form) :
    retChunks (.ifCond i l :: fs) = retChunks fs := rfl

theorem retChunks_ifThen (i : Nat) (l : List Value) (sv : List Op) (fs : List Form) :
    retChunks (.ifThen i l sv :: fs) = retChunks fs := rfl

theorem retChunks_ifElse (sv tb : List Op) (fs : List Form) :
    retChunks (.ifElse sv tb :: fs) = retChunks fs := rfl

theorem retChunks_doF (i : Nat) (l : List Value) (k : Nat) (fs : List Form) :
    retChunks (.doF i l k :: fs) = retChunks fs := rfl

theorem retChunks_defineF (fs : List Form) :
    retChunks (.defineF :: fs) = retChunks fs := rfl

theorem retChunks_retF (ch : Chunk) (fs : List Form) :
    retChunks (.retF ch :: fs) = ch :: retChunks fs := rfl

theorem retChunks_addMany (i : Nat) (l : List Value) (k : Nat) (fs : List Form) :
    retChunks (.addMany i l k :: fs) = retChunks fs := rfl

theorem retChunks_addF (fs : List Form) :
    retChunks (.addF :: fs) = retChunks fs := rfl

theorem retChunks_equalF (fs : List Form) :
    retChunks (.equalF :: fs) = retChunks fs := rfl

theorem retChunks_equalConst (k : Nat) (fs : List Form) :
    retChunks (.equalConst k :: fs) = retChunks fs := rfl

theorem retChunks_letF (n : Nat) (fs : List Form) :
    retChunks (.letF n :: fs) = retChunks fs := rfl

theorem retChunks_binding (s : Nat) (fs : List Form) :
    retChunks (.binding s :: fs) = retChunks fs := rfl

theorem retChunks_quotingF (fs : List Form) :
    retChunks (.quotingF :: fs) = retChunks fs := rfl

theorem retChunks_append (a b : List Form) :
    retChunks (a ++ b) = retChunks a ++ retChunks b := List.filterMap_append _ _ _

theorem evalNextInList_keeps (st st2 : CState) (i : Nat) (l : List Value) (idx : Nat)
    (h : evalNextInList st i l idx = .ok st2) :
    st2.chunk.consts = st.chunk.consts ∧ retChunks st2.forms = retChunks st.forms := by
  rw [evalNextInList] at h
  obtain ⟨item, hi, h⟩ := bindOk h
  cases h
  exact ⟨rfl, rfl⟩

theorem setArgc_keeps (st st2 : CState) (a : Nat) (h : setArgc st a = .ok st2) :
    st2.chunk.consts = st.chunk.consts ∧ retChunks st2.forms = retChunks st.forms := by
  rw [setArgc] at h
  split at h
  · cases h
  · cases h
    exact ⟨rfl, rfl⟩

theorem applyOp_keeps (st : CState) :
    (applyOp st).chunk.consts = st.chunk.consts ∧
      retChunks (applyOp st).forms = retChunks st.forms := by
  rw [applyOp]
  split <;> exact ⟨rfl, rfl⟩

theorem evalThenBranch_keeps (st st2 : CState) (i : Nat) (l : List Value)
    (h : evalThenBranch st i l = .ok st2) :
    st2.chunk.consts = st.chunk.consts ∧ retChunks st2.forms = retChunks st.forms := by
  rw [evalThenBranch] at h
  obtain ⟨br, hb, h⟩ := bindOk h
  cases h
  exact ⟨rfl, rfl⟩

theorem evalElseBranch_keeps (st st2 : CState) (l : List Value) (saved : List Op)
    (h : evalElseBranch st l saved = .ok st2) :
    st2.chunk.consts = st.chunk.consts ∧ retChunks st2.forms = retChunks st.forms := by
  rw [evalElseBranch] at h
  obtain ⟨br, hb, h⟩ := bindOk h
  cases h
  exact ⟨rfl, rfl⟩

theorem combineBranches_keeps (st st2 : CState) (saved thenB : List Op)
    (h : combineBranches st saved thenB = .ok st2) :
    st2.chunk.consts = st.chunk.consts ∧ retChunks st2.forms = retChunks st.forms := by
  rw [combineBranches] at h
  split at h
  · cases h
  · split at h
    · cases h
    · cases h
      exact ⟨rfl, rfl⟩

theorem evalNextInDo_keeps (st st2 : CState) (i : Nat) (l : List Value) (idx : Nat)
    (h : evalNextInDo st i l idx = .ok st2) :
    st2.chunk.consts = st.chunk.consts ∧ retChunks st2.forms = retChunks st.forms := by
  rw [evalNextInDo] at h
  obtain ⟨item, hi, h⟩ := bindOk h
  by_cases h1 : l.length - 1 > idx
  · rw [if_pos h1] at h
    dsimp only at h
    by_cases h2 : 1 < idx
    · rw [if_pos h2] at h
      cases h
      exact ⟨rfl, rfl⟩
    · rw [if_neg h2] at h
      cases h
      exact ⟨rfl, rfl⟩
  · rw [if_neg h1] at h
    dsimp only at h
    by_cases h2 : 1 < idx
    · rw [if_pos h2] at h
      cases h
      exact ⟨rfl, rfl⟩
    · rw [if_neg h2] at h
      cases h
      exact ⟨rfl, rfl⟩

theorem evalNextInAdd_inv (st st2 : CState) (i : Nat) (l : List Value) (idx : Nat)
    (hc : constsOk st.chunk.consts) (h : evalNextInAdd st i l idx = .ok st2) :
    constsOk st2.chunk.consts ∧ retChunks st2.forms = retChunks st.forms := by
  rw [evalNextInAdd] at h
  by_cases h1 : idx = 1
  · rw [if_pos h1] at h
    obtain ⟨item, hi, h⟩ := bindOk h
    cases h
    exact ⟨hc, rfl⟩
  · rw [if_neg h1] at h
    by_cases h2 : idx < l.length
    · rw [if_pos h2] at h
      obtain ⟨item, hi, h⟩ := bindOk h
      by_cases h3 : isConst item = true
      · rw [if_pos h3] at h
        obtain ⟨r, hr, h⟩ := bindOk h
        cases h
        exact ⟨(getConstIdx_constsOk _ _ _ hc hr).1, rfl⟩
      · rw [if_neg h3] at h
        cases h
        exact ⟨hc, rfl⟩
    · rw [if_neg h2] at h
      cases h
      exact ⟨hc, rfl⟩

theorem bindingForms_no_ret (bs : List Value) :
    ∀ bf, bindingForms bs = .ok bf → retChunks bf = [] := by
  induction bs using bindingForms.induct with
  | case1 =>
    intro bf h
    cases h
    rfl
  | case2 s v rest ih =>
    intro bf h
    rw [bindingForms] at h
    obtain ⟨fs, hf, h⟩ := bindOk h
    cases h
    rw [retChunks_value, retChunks_binding]
    exact ih fs hf
  | case3 a b rest h1 =>
    intro bf h
    rw [bindingForms] at h
    · cases h
    · exact h1
  | case4 a =>
    intro bf h
    rw [bindingForms] at h
    cases h

theorem evalList_inv (st st2 : CState) (i : Nat) (l : List Value)
    (hc : constsOk st.chunk.consts) (hf : formsOk st.forms)
    (h : evalList st i l = .ok st2) :
    constsOk st2.chunk.consts ∧ formsOk st2.forms := by
  rw [evalList] at h
  by_cases h255 : 255 < l.length
  · rw [if_pos h255] at h
    cases h
  · rw [if_neg h255] at h
    by_cases hq : st.quoting = true
    · rw [if_pos hq] at h
      obtain ⟨v0, hv, h⟩ := bindOk h
      cases h
      refine ⟨hc, ?_⟩
      intro ch hch
      rw [retChunks_value, retChunks_listF] at hch
      exact hf ch hch
    · rw [if_neg hq] at h
      rcases hl0 : l.get? 0 with _ | hd
      · rw [hl0] at h
        cases h
      · rw [hl0] at h
        dsimp only at h
        cases hd
        on_goal 4 =>
          rename_i s
          dsimp only at h
          by_cases hdo : s = symId "do"
          · rw [if_pos hdo] at h
            split at h
            · cases h
            · cases h
              refine ⟨hc, ?_⟩
              intro ch hch
              rw [retChunks_doF] at hch
              exact hf ch hch
          · rw [if_neg hdo] at h
            by_cases hfn : s = symId "fn"
            · rw [if_pos hfn] at h
              split at h
              · cases h
              · obtain ⟨v1, hv1, h⟩ := bindOk h
                cases v1
                on_goal 6 =>
                  rename_i lid args
                  dsimp only at h
                  by_cases hargs : 255 < args.length
                  · rw [if_pos hargs] at h
                    cases h
                  · rw [if_neg hargs] at h
                    obtain ⟨sc2, hsc, h⟩ := bindOk h
                    obtain ⟨body, hb, h⟩ := bindOk h
                    cases h
                    refine ⟨List.Pairwise.nil, ?_⟩
                    intro ch hch
                    rw [retChunks_value, retChunks_retF] at hch
                    rcases List.mem_cons.mp hch with hch | hch
                    · rw [hch]
                      exact hc
                    · exact hf ch hch

                all_goals cases h
            · rw [if_neg hfn] at h
              by_cases hdef : s = symId "def"
              · rw [if_pos hdef] at h
                split at h
                · cases h
                · obtain ⟨v1, hv1, h⟩ := bindOk h
                  obtain ⟨st3, hp, h⟩ := bindOk h
                  obtain ⟨v2, hv2, h⟩ := bindOk h
                  cases h
                  have hpc := pushC_constsOk _ _ _ hc hp
                  refine ⟨hpc.1, ?_⟩
                  intro ch hch
                  rw [retChunks_value, retChunks_defineF, hpc.2] at hch
                  exact hf ch hch
              · rw [if_neg hdef] at h
                by_cases hif : s = symId "if"
                · rw [if_pos hif] at h
                  split at h
                  · cases h
                  · obtain ⟨cond, hcd, h⟩ := bindOk h
                    cases h
                    refine ⟨hc, ?_⟩
                    intro ch hch
                    rw [retChunks_value, retChunks_ifCond] at hch
                    exact hf ch hch
                · rw [if_neg hif] at h
                  by_cases hlt : s = symId "let"
                  · rw [if_pos hlt] at h
                    split at h
                    · cases h
                    · obtain ⟨v1, hv1, h⟩ := bindOk h
                      cases v1
                      on_goal 6 =>
                        rename_i bid bindings
                        dsimp only at h
                        by_cases hbs : bindings.length % 2 = 1
                        · rw [if_pos hbs] at h
                          cases h
                        · rw [if_neg hbs] at h
                          obtain ⟨body, hb, h⟩ := bindOk h
                          obtain ⟨bf, hbf, h⟩ := bindOk h
                          cases h
                          refine ⟨hc, ?_⟩
                          intro ch hch
                          rw [retChunks_append, bindingForms_no_ret _ _ hbf,
                            List.nil_append, retChunks_value, retChunks_letF] at hch
                          exact hf ch hch

                      all_goals cases h
                  · rw [if_neg hlt] at h
                    by_cases heq : s = symId "="
                    · rw [if_pos heq] at h
                      split at h
                      · cases h
                      · obtain ⟨a, ha, h⟩ := bindOk h
                        obtain ⟨b, hb, h⟩ := bindOk h
                        by_cases hcc : isConst a = isConst b
                        · rw [if_pos hcc] at h
                          have hpc := pushC_constsOk _ _ _ hc h
                          refine ⟨hpc.1, ?_⟩
                          intro ch hch
                          rw [hpc.2] at hch
                          exact hf ch hch
                        · rw [if_neg hcc] at h
                          by_cases hca : isConst a = true
                          · rw [if_pos hca] at h
                            obtain ⟨r, hr, h⟩ := bindOk h
                            cases h
                            refine ⟨(getConstIdx_constsOk _ _ _ hc hr).1, ?_⟩
                            intro ch hch
                            rw [retChunks_value, retChunks_equalConst] at hch
                            exact hf ch hch
                          · rw [if_neg hca] at h
                            by_cases hcb : isConst b = true
                            · rw [if_pos hcb] at h
                              obtain ⟨r, hr, h⟩ := bindOk h
                              cases h
                              refine ⟨(getConstIdx_constsOk _ _ _ hc hr).1, ?_⟩
                              intro ch hch
                              rw [retChunks_value, retChunks_equalConst] at hch
                              exact hf ch hch
                            · rw [if_neg hcb] at h
                              cases h
                              refine ⟨hc, ?_⟩
                              intro ch hch
                              rw [retChunks_value, retChunks_value, retChunks_equalF] at hch
                              exact hf ch hch
                    · rw [if_neg heq] at h
                      by_cases hpl : s = symId "+"
                      · rw [if_pos hpl] at h
                        rcases hll : l.length with _ | _ | _ | m
                        all_goals rw [hll] at h
                        · cases h
                          refine ⟨hc, ?_⟩
                          intro ch hch
                          rw [retChunks_addMany] at hch
                          exact hf ch hch
                        · obtain ⟨r, hr, h⟩ := bindOk h
                          cases h
                          exact ⟨(getConstIdx_constsOk _ _ _ hc hr).1, hf⟩
                        · obtain ⟨v1, hv1, h⟩ := bindOk h
                          cases h
                          refine ⟨hc, ?_⟩
                          intro ch hch
                          rw [retChunks_value] at hch
                          exact hf ch hch
                        · cases h
                          refine ⟨hc, ?_⟩
                          intro ch hch
                          rw [retChunks_addMany] at hch
                          exact hf ch hch
                      · rw [if_neg hpl] at h
                        by_cases hqt : s = symId "quote"
                        · rw [if_pos hqt] at h
                          split at h
                          · cases h
                          · obtain ⟨v1, hv1, h⟩ := bindOk h
                            have hpc := pushC_constsOk _ _ _ hc h
                            refine ⟨hpc.1, ?_⟩
                            intro ch hch
                            rw [hpc.2] at hch
                            exact hf ch hch
                        · rw [if_neg hqt] at h
                          by_cases hqq : s = symId "quasiquote"
                          · rw [if_pos hqq] at h
                            split at h
                            · cases h
                            · obtain ⟨v1, hv1, h⟩ := bindOk h
                              cases h
                              refine ⟨hc, ?_⟩
                              intro ch hch
                              rw [retChunks_value, retChunks_quotingF] at hch
                              exact hf ch hch
                          · rw [if_neg hqq] at h
                            cases h
                            refine ⟨hc, ?_⟩
                            intro ch hch
                            rw [retChunks_listF, retChunks_applyF] at hch
                            exact hf ch hch
        all_goals {
          cases h
          refine ⟨hc, ?_⟩
          intro ch hch
          rw [retChunks_listF, retChunks_applyF] at hch
          exact hf ch hch
        }

theorem mapOk {α β : Type} {f : α → β} {m : Res α} {b : β}
    (h : f <$> m = .ok b) : ∃ a, m = .ok a ∧ f a = b := by
  cases m with
  | error e => simp [Functor.map, Except.map] at h
  | ok a =>
    refine ⟨a, rfl, ?_⟩
    have h2 : (Except.ok (f a) : Res β) = .ok b := by
      simpa [Functor.map, Except.map] using h
    cases h2
    rfl

theorem formsOk_retEq {a b : List Form} (h : retChunks a = retChunks b)
    (hb : formsOk b) : formsOk a := fun ch hch => hb ch (h ▸ hch)

theorem compStep_inv (st : CState) (hc : constsOk st.chunk.consts)
    (hf : formsOk st.forms) (r : StepRes) (h : compStep st = .ok r) : stepOk r := by
  rcases hfs : st.forms with _ | ⟨f, rest⟩
  · rw [compStep, hfs] at h
    dsimp only at h
    obtain ⟨rr, hr, h⟩ := bindOk h
    cases h
    exact hc
  · rw [compStep, hfs] at h
    dsimp only at h
    have hf2 : formsOk (f :: rest) := by rw [← hfs]; exact hf
    have hfr : formsOk rest := formsOk_tail _ _ hf2
    rcases f with v | ⟨fi, fl, fx⟩ | _ | ⟨ci, cl⟩ | ⟨ti, tl, tsv⟩ | ⟨esv, etb⟩ |
      ⟨di, dl, dx⟩ | _ | pch | ⟨ai, al, ax⟩ | _ | _ | k | n | s | _
    all_goals dsimp only at h
    · cases v
      on_goal 4 =>
        rename_i s
        obtain ⟨a, hm, h2⟩ := mapOk h
        cases h2
        have hk := evalSymbol_keeps _ _ _ hm
        refine ⟨by rw [hk.1]; exact hc, ?_⟩
        rw [hk.2]
        exact hfr
      on_goal 5 =>
        rename_i lid elems
        dsimp only at h
        by_cases he : elems.isEmpty = true
        · rw [if_pos he] at h
          obtain ⟨a, hm, h2⟩ := mapOk h
          cases h2
          have hk := pushC_constsOk { st with forms := rest } _ _ hc hm
          refine ⟨hk.1, ?_⟩
          rw [hk.2]
          exact hfr
        · rw [if_neg he] at h
          obtain ⟨a, hm, h2⟩ := mapOk h
          cases h2
          exact evalList_inv { st with forms := rest } _ _ _ hc hfr hm
      all_goals {
        obtain ⟨a, hm, h2⟩ := mapOk h
        cases h2
        have hk := pushC_constsOk { st with forms := rest } _ _ hc hm
        refine ⟨hk.1, ?_⟩
        rw [hk.2]
        exact hfr
      }
    · by_cases hx : fx < fl.length
      · rw [if_pos hx] at h
        obtain ⟨a, hm, h2⟩ := mapOk h
        cases h2
        have hk := evalNextInList_keeps _ _ _ _ _ hm
        exact ⟨by rw [hk.1]; exact hc, formsOk_retEq hk.2 hfr⟩
      · rw [if_neg hx] at h
        obtain ⟨a, hm, h2⟩ := mapOk h
        cases h2
        have hk := setArgc_keeps _ _ _ hm
        exact ⟨by rw [hk.1]; exact hc, formsOk_retEq hk.2 hfr⟩
    · cases h
      have hk := applyOp_keeps { st with forms := rest }
      exact ⟨by rw [hk.1]; exact hc, formsOk_retEq hk.2 hfr⟩
    · obtain ⟨a, hm, h2⟩ := mapOk h
      cases h2
      have hk := evalThenBranch_keeps _ _ _ _ hm
      exact ⟨by rw [hk.1]; exact hc, formsOk_retEq hk.2 hfr⟩
    · obtain ⟨a, hm, h2⟩ := mapOk h
      cases h2
      have hk := evalElseBranch_keeps _ _ _ _ hm
      exact ⟨by rw [hk.1]; exact hc, formsOk_retEq hk.2 hfr⟩
    · obtain ⟨a, hm, h2⟩ := mapOk h
      cases h2
      have hk := combineBranches_keeps _ _ _ _ hm
      exact ⟨by rw [hk.1]; exact hc, formsOk_retEq hk.2 hfr⟩
    · obtain ⟨a, hm, h2⟩ := mapOk h
      cases h2
      have hk := evalNextInDo_keeps _ _ _ _ _ hm
      exact ⟨by rw [hk.1]; exact hc, formsOk_retEq hk.2 hfr⟩
    · cases h
      exact ⟨hc, hfr⟩
    · obtain ⟨a, hm, h2⟩ := mapOk h
      cases h2
      have hp : constsOk pch.consts := by
        refine hf2 pch ?_
        rw [retChunks_retF]
        exact List.mem_cons_self _ _
      have hk := wrapFn_inv _ _ _ hp hm
      refine ⟨hk.1, ?_⟩
      rw [hk.2]
      exact hfr
    · obtain ⟨a, hm, h2⟩ := mapOk h
      cases h2
      have hk := evalNextInAdd_inv { st with forms := rest } _ _ _ _ hc hm
      exact ⟨hk.1, formsOk_retEq hk.2 hfr⟩
    · cases h
      exact ⟨hc, hfr⟩
    · cases h
      exact ⟨hc, hfr⟩
    · cases h
      exact ⟨hc, hfr⟩
    · obtain ⟨sc, hs, h⟩ := bindOk h
      cases h
      exact ⟨hc, hfr⟩
    · obtain ⟨a, hm, h2⟩ := mapOk h
      cases h2
      have hk := registerBinding_keeps _ _ _ hm
      refine ⟨by rw [hk.1]; exact hc, ?_⟩
      rw [hk.2]
      exact hfr
    · cases h
      exact ⟨hc, hfr⟩

theorem compileLoop_inv (fuel : Nat) :
    ∀ st ch, constsOk st.chunk.consts → formsOk st.forms →
      compileLoop fuel st = some (.ok ch) → constsOk ch.consts := by
  induction fuel with
  | zero =>
    intro st ch _ _ h
    simp [compileLoop] at h
  | succ n ih =>
    intro st ch hc hf h
    rw [compileLoop] at h
    rcases hs : compStep st with e | sr
    · rw [hs] at h
      simp at h
    · rw [hs] at h
      rcases sr with ch2 | st2
      · dsimp only at h
        have hd := compStep_inv st hc hf _ hs
        cases h
        exact hd
      · dsimp only at h
        have hi := compStep_inv st hc hf _ hs
        exact ih st2 ch hi.1 hi.2 h

/-- Claim C8: every chunk the compiler produces has a constant pool in which
no two entries are PartialEq-equal; hence two distinct indices never hold the
same atom or string literal (those compare structurally), while structurally
equal list literals with distinct allocation ids both stay in the pool, as the
compiled form of (do (quote (1)) (quote (1))) shows. -/
theorem c8_consts_dedup :
    (∀ fuel fresh0 ast ch, compile fuel fresh0 ast = some (.ok ch) →
      constsOk ch.consts) ∧
    (∀ fuel fresh0 ast ch, compile fuel fresh0 ast = some (.ok ch) →
      ∀ i j : Fin ch.consts.length, i ≠ j → isAtomLit (ch.consts.get i) = true →
        ch.consts.get i ≠ ch.consts.get j) ∧
    compile 100 100 astTwoQuotes = some (.ok ⟨[.push 0, .pop, .push 1, .ret],
      [.list 3 [.number 1], .list 5 [.number 1]], 0, 0⟩) := by
  have main : ∀ fuel fresh0 ast ch, compile fuel fresh0 ast = some (.ok ch) →
      constsOk ch.consts := by
    intro fuel fresh0 ast ch h
    refine compileLoop_inv fuel (CState.start fresh0 ast) ch List.Pairwise.nil ?_ h
    intro c hcm
    have hz : retChunks (CState.start fresh0 ast).forms = [] := rfl
    rw [hz] at hcm
    exact absurd hcm (List.not_mem_nil c)
  refine ⟨main, ?_, ?_⟩
  · intro fuel fresh0 ast ch h i j hij hatom heq2
    have hp := main fuel fresh0 ast ch h
    have hp2 := List.pairwise_iff_get.mp hp
    have hatomj : isAtomLit (ch.consts.get j) = true := by rw [← heq2]; exact hatom
    rcases lt_or_gt_of_ne (fun hv => hij (Fin.ext hv)) with hlt | hgt
    · have hx := hp2 i j hlt
      rw [heq2, veq_refl_atom _ hatomj] at hx
      cases hx
    · have hx := hp2 j i hgt
      rw [heq2, veq_refl_atom _ hatomj] at hx
      cases hx
  · rfl

theorem c8_consts_dedup_witness :
    constsOk (Chunk.mk [Op.push 0, Op.ret] [Value.number 1] 0 0).consts :=
  c8_consts_dedup.1 10 0 (Value.number 1) _ rfl

theorem pushC_forms (st : CState) (v : Value) (st2 : CState)
    (h : pushC st v = .ok st2) : st2.forms = st.forms := by
  rw [pushC] at h
  obtain ⟨r, hr, h⟩ := bindOk h
  cases h
  rfl

theorem applyOp_forms (st : CState) : (applyOp st).forms = st.forms := by
  rw [applyOp]
  split <;> rfl

theorem wrapFn_forms (st st2 : CState) (parent : Chunk)
    (h : wrapFn st parent = .ok st2) : st2.forms = st.forms := by
  rw [wrapFn] at h
  obtain ⟨r, hs, h⟩ := bindOk h
  split at h
  · exact (pushC_forms _ _ _ h).trans rfl
  · obtain ⟨stp, hq, h⟩ := bindOk h
    cases h
    exact (pushC_forms _ _ _ hq).trans rfl

theorem setArgc_forms (st st2 : CState) (a : Nat) (h : setArgc st a = .ok st2) :
    st2.forms = st.forms := by
  rw [setArgc] at h
  split at h
  · cases h
  · cases h
    rfl

theorem evalNextInList_forms (st st2 : CState) (i : Nat) (l : List Value) (idx : Nat)
    (h : evalNextInList st i l idx = .ok st2) : ∃ g, st2.forms = g ++ st.forms := by
  rw [evalNextInList] at h
  obtain ⟨item, hi, h⟩ := bindOk h
  cases h
  exact ⟨[.value item, .listF i l (idx + 1)], rfl⟩

theorem evalNextInDo_forms (st st2 : CState) (i : Nat) (l : List Value) (idx : Nat)
    (h : evalNextInDo st i l idx = .ok st2) : ∃ g, st2.forms = g ++ st.forms := by
  rw [evalNextInDo] at h
  obtain ⟨item, hi, h⟩ := bindOk h
  by_cases h1 : l.length - 1 > idx
  · rw [if_pos h1] at h
    dsimp only at h
    by_cases h2 : 1 < idx
    · rw [if_pos h2] at h
      cases h
      exact ⟨[.value item, .doF i l (idx + 1)], rfl⟩
    · rw [if_neg h2] at h
      cases h
      exact ⟨[.value item, .doF i l (idx + 1)], rfl⟩
  · rw [if_neg h1] at h
    dsimp only at h
    by_cases h2 : 1 < idx
    · rw [if_pos h2] at h
      cases h
      exact ⟨[.value item], rfl⟩
    · rw [if_neg h2] at h
      cases h
      exact ⟨[.value item], rfl⟩

theorem evalNextInAdd_forms (st st2 : CState) (i : Nat) (l : List Value) (idx : Nat)
    (h : evalNextInAdd st i l idx = .ok st2) : ∃ g, st2.forms = g ++ st.forms := by
  rw [evalNextInAdd] at h
  by_cases h1 : idx = 1
  · rw [if_pos h1] at h
    obtain ⟨item, hi, h⟩ := bindOk h
    cases h
    exact ⟨[.value item, .addMany i l (idx + 1)], rfl⟩
  · rw [if_neg h1] at h
    by_cases h2 : idx < l.length
    · rw [if_pos h2] at h
      obtain ⟨item, hi, h⟩ := bindOk h
      by_cases h3 : isConst item = true
      · rw [if_pos h3] at h
        obtain ⟨r, hr, h⟩ := bindOk h
        cases h
        exact ⟨[.addMany i l (idx + 1)], rfl⟩
      · rw [if_neg h3] at h
        cases h
        exact ⟨[.value item, .addF, .addMany i l (idx + 1)], rfl⟩
    · rw [if_neg h2] at h
      cases h
      exact ⟨[], rfl⟩

theorem evalThenBranch_forms (st st2 : CState) (i : Nat) (l : List Value)
    (h : evalThenBranch st i l = .ok st2) : ∃ g, st2.forms = g ++ st.forms := by
  rw [evalThenBranch] at h
  obtain ⟨br, hb, h⟩ := bindOk h
  cases h
  exact ⟨[.value br, .ifThen i l st.chunk.ops], rfl⟩

theorem evalElseBranch_forms (st st2 : CState) (l : List Value) (saved : List Op)
    (h : evalElseBranch st l saved = .ok st2) : ∃ g, st2.forms = g ++ st.forms := by
  rw [evalElseBranch] at h
  obtain ⟨br, hb, h⟩ := bindOk h
  cases h
  exact ⟨[.value br, .ifElse saved st.chunk.ops], rfl⟩

theorem combineBranches_ops (st : CState) (saved thenB : List Op) (st2 : CState)
    (h : combineBranches st saved thenB = .ok st2) :
    st2.chunk.ops = saved ++ [.condJmp (thenB.length + 1)] ++ thenB
      ++ [(if isLastExp st.forms then Op.ret else Op.jmp st.chunk.ops.length)]
      ++ st.chunk.ops ∧
    st2.forms = st.forms ∧ st2.chunk.consts = st.chunk.consts := by
  rw [combineBranches] at h
  split at h
  · cases h
  · split at h
    · cases h
    · cases h
      exact ⟨rfl, rfl, rfl⟩

theorem evalList_forms (st st2 : CState) (i : Nat) (l : List Value)
    (h : evalList st i l = .ok st2) : ∃ g, st2.forms = g ++ st.forms := by
  rw [evalList] at h
  by_cases h255 : 255 < l.length
  · rw [if_pos h255] at h
    cases h
  · rw [if_neg h255] at h
    by_cases hq : st.quoting = true
    · rw [if_pos hq] at h
      obtain ⟨v0, hv, h⟩ := bindOk h
      cases h
      exact ⟨[.value v0, .listF i l 0], rfl⟩
    · rw [if_neg hq] at h
      rcases hl0 : l.get? 0 with _ | hd
      · rw [hl0] at h
        cases h
      · rw [hl0] at h
        dsimp only at h
        cases hd
        on_goal 4 =>
          rename_i s
          dsimp only at h
          by_cases hdo : s = symId "do"
          · rw [if_pos hdo] at h
            split at h
            · cases h
            · cases h
              exact ⟨[.doF i l 1], rfl⟩
          · rw [if_neg hdo] at h
            by_cases hfn : s = symId "fn"
            · rw [if_pos hfn] at h
              split at h
              · cases h
              · obtain ⟨v1, hv1, h⟩ := bindOk h
                cases v1
                on_goal 6 =>
                  rename_i lid args
                  dsimp only at h
                  by_cases hargs : 255 < args.length
                  · rw [if_pos hargs] at h
                    cases h
                  · rw [if_neg hargs] at h
                    obtain ⟨sc2, hsc, h⟩ := bindOk h
                    obtain ⟨body, hb, h⟩ := bindOk h
                    cases h
                    exact ⟨[.value body, .retF st.chunk], rfl⟩
                all_goals cases h
            · rw [if_neg hfn] at h
              by_cases hdef : s = symId "def"
              · rw [if_pos hdef] at h
                split at h
                · cases h
                · obtain ⟨v1, hv1, h⟩ := bindOk h
                  obtain ⟨st3, hp, h⟩ := bindOk h
                  obtain ⟨v2, hv2, h⟩ := bindOk h
                  cases h
                  refine ⟨[.value v2, .defineF], ?_⟩
                  rw [pushC_forms _ _ _ hp]
                  rfl
              · rw [if_neg hdef] at h
                by_cases hif : s = symId "if"
                · rw [if_pos hif] at h
                  split at h
                  · cases h
                  · obtain ⟨cond, hcd, h⟩ := bindOk h
                    cases h
                    exact ⟨[.value cond, .ifCond i l], rfl⟩
                · rw [if_neg hif] at h
                  by_cases hlt : s = symId "let"
                  · rw [if_pos hlt] at h
                    split at h
                    · cases h
                    · obtain ⟨v1, hv1, h⟩ := bindOk h
                      cases v1
                      on_goal 6 =>
                        rename_i bid bindings
                        dsimp only at h
                        by_cases hbs : bindings.length % 2 = 1
                        · rw [if_pos hbs] at h
                          cases h
                        · rw [if_neg hbs] at h
                          obtain ⟨body, hb, h⟩ := bindOk h
                          obtain ⟨bf, hbf, h⟩ := bindOk h
                          cases h
                          refine ⟨bf ++ [.value body, .letF (bindings.length / 2)], ?_⟩
                          simp
                      all_goals cases h
                  · rw [if_neg hlt] at h
                    by_cases heq : s = symId "="
                    · rw [if_pos heq] at h
                      split at h
                      · cases h
                      · obtain ⟨a, ha, h⟩ := bindOk h
                        obtain ⟨b, hb, h⟩ := bindOk h
                        by_cases hcc : isConst a = isConst b
                        · rw [if_pos hcc] at h
                          refine ⟨[], ?_⟩
                          rw [pushC_forms _ _ _ h]
                          rfl
                        · rw [if_neg hcc] at h
                          by_cases hca : isConst a = true
                          · rw [if_pos hca] at h
                            obtain ⟨r, hr, h⟩ := bindOk h
                            cases h
                            exact ⟨[.value b, .equalConst r.2], rfl⟩
                          · rw [if_neg hca] at h
                            by_cases hcb : isConst b = true
                            · rw [if_pos hcb] at h
                              obtain ⟨r, hr, h⟩ := bindOk h
                              cases h
                              exact ⟨[.value a, .equalConst r.2], rfl⟩
                            · rw [if_neg hcb] at h
                              cases h
                              exact ⟨[.value b, .value a, .equalF], rfl⟩
                    · rw [if_neg heq] at h
                      by_cases hpl : s = symId "+"
                      · rw [if_pos hpl] at h
                        rcases hll : l.length with _ | _ | _ | m
                        all_goals rw [hll] at h
                        · cases h
                          exact ⟨[.addMany i l 1], rfl⟩
                        · obtain ⟨r, hr, h⟩ := bindOk h
                          cases h
                          exact ⟨[], rfl⟩
                        · obtain ⟨v1, hv1, h⟩ := bindOk h
                          cases h
                          exact ⟨[.value v1], rfl⟩
                        · cases h
                          exact ⟨[.addMany i l 1], rfl⟩
                      · rw [if_neg hpl] at h
                        by_cases hqt : s = symId "quote"
                        · rw [if_pos hqt] at h
                          split at h
                          · cases h
                          · obtain ⟨v1, hv1, h⟩ := bindOk h
                            refine ⟨[], ?_⟩
                            rw [pushC_forms _ _ _ h]
                            rfl
                        · rw [if_neg hqt] at h
                          by_cases hqq : s = symId "quasiquote"
                          · rw [if_pos hqq] at h
                            split at h
                            · cases h
                            · obtain ⟨v1, hv1, h⟩ := bindOk h
                              cases h
                              exact ⟨[.value v1, .quotingF], rfl⟩
                          · rw [if_neg hqq] at h
                            cases h
                            exact ⟨[.listF i l 0, .applyF], rfl⟩
        all_goals {
          cases h
          exact ⟨[.listF i l 0, .applyF], rfl⟩
        }

theorem compStep_cons (st : CState) (f : Form) (rest : List Form) (sr : StepRes)
    (hfs : st.forms = f :: rest) (h : compStep st = .ok sr) :
    ∃ st2 g, sr = .next st2 ∧ st2.forms = g ++ rest := by
  rw [compStep, hfs] at h
  clear hfs
  dsimp only at h
  rcases f with v | ⟨fi, fl, fx⟩ | _ | ⟨ci, cl⟩ | ⟨ti, tl, tsv⟩ | ⟨esv, etb⟩ |
    ⟨di, dl, dx⟩ | _ | pch | ⟨ai, al, ax⟩ | _ | _ | k | n | s | _
  all_goals dsimp only at h
  · cases v
    on_goal 4 =>
      obtain ⟨a, hm, h2⟩ := mapOk h
      exact ⟨a, [], h2.symm, (evalSymbol_keeps _ _ _ hm).2.trans rfl⟩
    on_goal 5 =>
      rename_i lid elems
      dsimp only at h
      by_cases he : elems.isEmpty = true
      · rw [if_pos he] at h
        obtain ⟨a, hm, h2⟩ := mapOk h
        exact ⟨a, [], h2.symm, (pushC_forms _ _ _ hm).trans rfl⟩
      · rw [if_neg he] at h
        obtain ⟨a, hm, h2⟩ := mapOk h
        obtain ⟨g, hg⟩ := evalList_forms _ _ _ _ hm
        exact ⟨a, g, h2.symm, hg⟩
    all_goals {
      obtain ⟨a, hm, h2⟩ := mapOk h
      exact ⟨a, [], h2.symm, (pushC_forms _ _ _ hm).trans rfl⟩
    }
  · by_cases hx : fx < fl.length
    · rw [if_pos hx] at h
      obtain ⟨a, hm, h2⟩ := mapOk h
      obtain ⟨g, hg⟩ := evalNextInList_forms _ _ _ _ _ hm
      exact ⟨a, g, h2.symm, hg⟩
    · rw [if_neg hx] at h
      obtain ⟨a, hm, h2⟩ := mapOk h
      exact ⟨a, [], h2.symm, (setArgc_forms _ _ _ hm).trans rfl⟩
  · cases h
    exact ⟨_, [], rfl, (applyOp_forms _).trans rfl⟩
  · obtain ⟨a, hm, h2⟩ := mapOk h
    obtain ⟨g, hg⟩ := evalThenBranch_forms _ _ _ _ hm
    exact ⟨a, g, h2.symm, hg⟩
  · obtain ⟨a, hm, h2⟩ := mapOk h
    obtain ⟨g, hg⟩ := evalElseBranch_forms _ _ _ _ hm
    exact ⟨a, g, h2.symm, hg⟩
  · obtain ⟨a, hm, h2⟩ := mapOk h
    exact ⟨a, [], h2.symm, (combineBranches_ops _ _ _ _ hm).2.1.trans rfl⟩
  · obtain ⟨a, hm, h2⟩ := mapOk h
    obtain ⟨g, hg⟩ := evalNextInDo_forms _ _ _ _ _ hm
    exact ⟨a, g, h2.symm, hg⟩
  · cases h
    exact ⟨_, [], rfl, rfl⟩
  · obtain ⟨a, hm, h2⟩ := mapOk h
    exact ⟨a, [], h2.symm, (wrapFn_forms _ _ _ hm).trans rfl⟩
  · obtain ⟨a, hm, h2⟩ := mapOk h
    obtain ⟨g, hg⟩ := evalNextInAdd_forms _ _ _ _ _ hm
    exact ⟨a, g, h2.symm, hg⟩
  · cases h
    exact ⟨_, [], rfl, rfl⟩
  · cases h
    exact ⟨_, [], rfl, rfl⟩
  · cases h
    exact ⟨_, [], rfl, rfl⟩
  · obtain ⟨sc, hs, h⟩ := bindOk h
    cases h
    exact ⟨_, [], rfl, rfl⟩
  · obtain ⟨a, hm, h2⟩ := mapOk h
    exact ⟨a, [], h2.symm, (registerBinding_keeps _ _ _ hm).2.trans rfl⟩
  · cases h
    exact ⟨_, [], rfl, rfl⟩

theorem compileLoop_step (n : Nat) (st st2 : CState)
    (h : compStep st = .ok (.next st2)) :
    compileLoop (n + 1) st = compileLoop n st2 := by
  rw [compileLoop, h]

theorem compileLoop_seg (fuel : Nat) :
    ∀ (st : CState) (r : Chunk) (g fs2 : List Form),
      st.forms = g ++ fs2 → compileLoop fuel st = some (.ok r) →
      ∃ fuel2 st2, fuel2 ≤ fuel ∧ st2.forms = fs2 ∧
        compileLoop fuel2 st2 = some (.ok r) := by
  induction fuel with
  | zero =>
    intro st r g fs2 hf h
    simp [compileLoop] at h
  | succ n ih =>
    intro st r g fs2 hf h
    rcases g with _ | ⟨f, g2⟩
    · exact ⟨n + 1, st, le_refl _, by simpa using hf, h⟩
    · rw [compileLoop] at h
      rcases hs : compStep st with e | sr
      · rw [hs] at h
        simp at h
      · rw [hs] at h
        obtain ⟨st2, gg, hsr, hforms⟩ :=
          compStep_cons st f (g2 ++ fs2) sr (by simpa using hf) hs
        subst hsr
        dsimp only at h
        obtain ⟨f2, st3, hle, hf3, h3⟩ := ih st2 r (gg ++ g2) fs2 (by simp [hforms]) h
        exact ⟨f2, st3, le_trans hle (Nat.le_succ n), hf3, h3⟩

theorem compile_if_shape (c t e : Value) (fuel fresh0 : Nat) (ch : Chunk)
    (h : compile fuel fresh0 (ifAst c t e) = some (.ok ch)) :
    ∃ C T E, ch.ops = C ++ [.condJmp (T.length + 1)] ++ T ++ [.ret] ++ E ++ [.ret] := by
  rcases fuel with _ | n
  · simp [compile, compileLoop] at h
  · have h1 : compStep (CState.start fresh0 (ifAst c t e)) =
        .ok (.next ⟨Chunk.default, [.value c, .ifCond 1 [symV "if", c, t, e]],
          Scoping.start, 0, false, fresh0⟩) := rfl
    rw [compile, compileLoop_step n _ _ h1] at h
    obtain ⟨n2, S2, hle2, hf2, h2⟩ := compileLoop_seg n _ ch
      [.value c] [.ifCond 1 [symV "if", c, t, e]] rfl h
    obtain ⟨ch2, f2x, sc2, a2, q2, fr2⟩ := S2
    dsimp only at hf2
    subst hf2
    rcases n2 with _ | n3
    · simp [compileLoop] at h2
    · have h3 : compStep ⟨ch2, [.ifCond 1 [symV "if", c, t, e]], sc2, a2, q2, fr2⟩ =
          .ok (.next ⟨⟨[], ch2.consts, ch2.scopeSize, ch2.arity⟩,
            [.value t, .ifThen 1 [symV "if", c, t, e] ch2.ops], sc2, a2, q2, fr2⟩) := rfl
      rw [compileLoop_step n3 _ _ h3] at h2
      obtain ⟨n4, S4, hle4, hf4, h4⟩ := compileLoop_seg n3 _ ch
        [.value t] [.ifThen 1 [symV "if", c, t, e] ch2.ops] rfl h2
      obtain ⟨ch4, f4x, sc4, a4, q4, fr4⟩ := S4
      dsimp only at hf4
      subst hf4
      rcases n4 with _ | n5
      · simp [compileLoop] at h4
      · have h5 : compStep ⟨ch4, [.ifThen 1 [symV "if", c, t, e] ch2.ops], sc4, a4, q4, fr4⟩ =
            .ok (.next ⟨⟨[], ch4.consts, ch4.scopeSize, ch4.arity⟩,
              [.value e, .ifElse ch2.ops ch4.ops], sc4, a4, q4, fr4⟩) := rfl
        rw [compileLoop_step n5 _ _ h5] at h4
        obtain ⟨n6, S6, hle6, hf6, h6⟩ := compileLoop_seg n5 _ ch
          [.value e] [.ifElse ch2.ops ch4.ops] rfl h4
        obtain ⟨ch6, f6x, sc6, a6, q6, fr6⟩ := S6
        dsimp only at hf6
        subst hf6
        rcases hcb : combineBranches ⟨ch6, [], sc6, a6, q6, fr6⟩ ch2.ops ch4.ops with er | S7
        · have hstep : compStep ⟨ch6, [.ifElse ch2.ops ch4.ops], sc6, a6, q6, fr6⟩
              = .error er := by
            rw [compStep_ifElseC, hcb]
            rfl
          rcases n6 with _ | n7
          · simp [compileLoop] at h6
          · rw [compileLoop, hstep] at h6
            simp at h6
        · have h7 : compStep ⟨ch6, [.ifElse ch2.ops ch4.ops], sc6, a6, q6, fr6⟩
              = .ok (.next S7) := by
            rw [compStep_ifElseC, hcb]
            rfl
          have hops := combineBranches_ops _ _ _ _ hcb
          simp only [isLastExp, if_pos] at hops
          rcases n6 with _ | n7
          · simp [compileLoop] at h6
          · rw [compileLoop_step n7 _ _ h7] at h6
            obtain ⟨ch7, f7x, sc7, a7, q7, fr7⟩ := S7
            dsimp only at hops
            have hf7 : f7x = [] := hops.2.1
            subst hf7
            rcases hsp : scPop sc7 with er | r
            · have hstep : compStep ⟨ch7, [], sc7, a7, q7, fr7⟩ = .error er := by
                rw [compStep_doneC,
                  show (emit ⟨ch7, [], sc7, a7, q7, fr7⟩ Op.ret).scopes = sc7 from rfl, hsp]
                rfl
              rcases n7 with _ | n8
              · simp [compileLoop] at h6
              · rw [compileLoop, hstep] at h6
                simp at h6
            · have hstep : compStep ⟨ch7, [], sc7, a7, q7, fr7⟩ =
                  .ok (.done ⟨ch7.ops ++ [.ret], ch7.consts, r.2.1, ch7.arity⟩) := by
                rw [compStep_doneC,
                  show (emit ⟨ch7, [], sc7, a7, q7, fr7⟩ Op.ret).scopes = sc7 from rfl, hsp]
                rfl
              rcases n7 with _ | n8
              · simp [compileLoop] at h6
              · rw [compileLoop, hstep] at h6
                dsimp only at h6
                have hch : ch = ⟨ch7.ops ++ [.ret], ch7.consts, r.2.1, ch7.arity⟩ := by
                  cases h6
                  rfl
                subst hch
                refine ⟨ch2.ops, ch4.ops, ch6.ops, ?_⟩
                dsimp only
                rw [hops.1]

theorem vmStep_condJmp (natF : Nat → List Value → Res Value) (pre T E : List Op)
    (tail : Op) (consts : List Value) (rv : Nat) (s : List Value) (v : Value)
    (calls : List Frame) (env : EnvT) (fr : Nat) :
    vmStep natF ⟨⟨pre ++ [.condJmp (T.length + 1)] ++ T ++ [tail] ++ E, consts,
        pre.length, rv⟩, s ++ [v], calls, env, fr⟩
      = .ok (.inr ⟨⟨pre ++ [.condJmp (T.length + 1)] ++ T ++ [tail] ++ E, consts,
          (if isTruthy v then pre.length + 1 else pre.length + 1 + (T.length + 1)), rv⟩,
          s, calls, env, fr⟩) := by
  have hget : (pre ++ Op.condJmp (T.length + 1) :: (T ++ tail :: E))[pre.length]?
      = some (Op.condJmp (T.length + 1)) := by
    rw [List.getElem?_append_right (le_refl _)]
    simp
  by_cases ht : isTruthy v = true
  · simp [vmStep, hget, List.getLast?_concat, List.dropLast_concat, ht]
  · simp [vmStep, hget, List.getLast?_concat, List.dropLast_concat, ht]

set_option maxRecDepth 8000 in
set_option maxHeartbeats 1000000 in
/-- Claim C7: truthiness of `if`. `is_truthy` accepts exactly the values
other than `Nil` and `Bool(false)`; every `combine_branches` call — the one
code path that stitches every compiled `(if c t e)` — emits
`CondJmp(then_len + 1)`, the then code, a `Return` in tail position
(`Jmp(else_len)` otherwise), then the else code, so every compiled top-level
if form's ops split as cond ++ [CondJmp] ++ then ++ [Return] ++ else ++
[Return] for arbitrary condition and branch forms; executing that `CondJmp`
with any condition value on top pops it and continues into the then code iff
the value is truthy, else skips exactly the then code plus the following tail
op. End to end, every literal-atom triple runs to the then value iff the
condition is truthy, the compound forms `(if (= 1 2) 10 20)` and
`(if (+ 1 2) (+ 1 1) 2)` run to `20` and `2`, and the non-tail context
`(+ (if c t e) 1)` selects `11`/`21` by the same rule. -/
theorem c7_if_truthiness :
    (∀ (c t e : Value), isAtomLit c = true → isAtomLit t = true → isAtomLit e = true →
      ∃ (C : Chunk) (k1 k2 k3 : Nat),
        compile 100 100 (ifAst c t e) = some (.ok C) ∧
        C.ops = [.push k1, .condJmp 2, .push k2, .ret, .push k3, .ret] ∧
        C.scopeSize = 0 ∧
        C.consts[k1]? = some c ∧ C.consts[k2]? = some t ∧ C.consts[k3]? = some e ∧
        run noNat 6 C [] 1000 = some (.ok (if isTruthy c then t else e))) ∧
    (∀ v : Value, isTruthy v = true ↔ v ≠ Value.nil ∧ v ≠ Value.bool false) ∧
    (∀ (st : CState) (saved thenB : List Op) (st2 : CState),
      combineBranches st saved thenB = .ok st2 →
      st2.chunk.ops = saved ++ [.condJmp (thenB.length + 1)] ++ thenB
        ++ [(if isLastExp st.forms then Op.ret else Op.jmp st.chunk.ops.length)]
        ++ st.chunk.ops) ∧
    (∀ (natF : Nat → List Value → Res Value) (pre T E : List Op) (tail : Op)
      (consts : List Value) (rv : Nat) (s : List Value) (v : Value)
      (calls : List Frame) (env : EnvT) (fr : Nat),
      vmStep natF ⟨⟨pre ++ [.condJmp (T.length + 1)] ++ T ++ [tail] ++ E, consts,
          pre.length, rv⟩, s ++ [v], calls, env, fr⟩
        = .ok (.inr ⟨⟨pre ++ [.condJmp (T.length + 1)] ++ T ++ [tail] ++ E, consts,
            (if isTruthy v then pre.length + 1 else pre.length + 1 + (T.length + 1)), rv⟩,
            s, calls, env, fr⟩)) ∧
    (∀ (c t e : Value) (fuel fresh0 : Nat) (ch : Chunk),
      compile fuel fresh0 (ifAst c t e) = some (.ok ch) →
      ∃ C T E, ch.ops = C ++ [.condJmp (T.length + 1)] ++ T ++ [.ret] ++ E ++ [.ret]) ∧
    evalTop 100 100 astIfEq [] = some (.ok (.number 20)) ∧
    evalTop 100 100 astIfAdd [] = some (.ok (.number 2)) ∧
    compile 100 100 (plusIfAst (.bool true) (.number 10) (.number 20))
      = some (.ok ⟨[.push 0, .condJmp 2, .push 1, .jmp 1, .push 2, .addConst 3, .ret],
          [.bool true, .number 10, .number 20, .number 1], 0, 0⟩) ∧
    evalTop 100 100 (plusIfAst (.bool true) (.number 10) (.number 20)) []
      = some (.ok (.number 11)) ∧
    evalTop 100 100 (plusIfAst (.bool false) (.number 10) (.number 20)) []
      = some (.ok (.number 21)) := by
  refine ⟨?_, ?_, ?_, ?_, ?_, rfl, rfl, rfl, rfl, rfl⟩
  · intro c t e hc ht he
    by_cases hct : veq c t = true
    · have hct2 : c = t := veq_atom_eq c t ht hct
      subst hct2
      by_cases hce : veq c e = true
      · have hce2 : c = e := veq_atom_eq c e he hce
        subst hce2
        refine ⟨⟨[.push 0, .condJmp 2, .push 0, .ret, .push 0, .ret], [c], 0, 0⟩,
          0, 0, 0, ?_, rfl, rfl, rfl, rfl, rfl,
          run_if_chunk [c] 0 0 0 c c c [] 1000 rfl rfl rfl⟩
        simp [compile, compileLoop, CState.start, compStep_value_listC, compStep_value_atom,
          compStep_ifCondC, compStep_ifThenC, compStep_ifElseC, compStep_doneC,
          evalList, evalThenBranch, evalElseBranch, combineBranches, isLastExp,
          pushC, getConstIdx, emit, scPop, Scoping.start, Chunk.default, ifAst, symV, symId,
          vIdx, hc, veq_refl_atom _ hc, Bind.bind, Except.bind, List.findIdx?]
      · refine ⟨⟨[.push 0, .condJmp 2, .push 0, .ret, .push 1, .ret], [c, e], 0, 0⟩,
          0, 0, 1, ?_, rfl, rfl, rfl, rfl, rfl,
          run_if_chunk [c, e] 0 0 1 c c e [] 1000 rfl rfl rfl⟩
        simp [compile, compileLoop, CState.start, compStep_value_listC, compStep_value_atom,
          compStep_ifCondC, compStep_ifThenC, compStep_ifElseC, compStep_doneC,
          evalList, evalThenBranch, evalElseBranch, combineBranches, isLastExp,
          pushC, getConstIdx, emit, scPop, Scoping.start, Chunk.default, ifAst, symV, symId,
          vIdx, hc, he, veq_refl_atom _ hc, hce, Bind.bind, Except.bind, List.findIdx?]
    · by_cases hce : veq c e = true
      · have hce2 : c = e := veq_atom_eq c e he hce
        subst hce2
        refine ⟨⟨[.push 0, .condJmp 2, .push 1, .ret, .push 0, .ret], [c, t], 0, 0⟩,
          0, 1, 0, ?_, rfl, rfl, rfl, rfl, rfl,
          run_if_chunk [c, t] 0 1 0 c t c [] 1000 rfl rfl rfl⟩
        simp [compile, compileLoop, CState.start, compStep_value_listC, compStep_value_atom,
          compStep_ifCondC, compStep_ifThenC, compStep_ifElseC, compStep_doneC,
          evalList, evalThenBranch, evalElseBranch, combineBranches, isLastExp,
          pushC, getConstIdx, emit, scPop, Scoping.start, Chunk.default, ifAst, symV, symId,
          vIdx, hc, ht, veq_refl_atom _ hc, hct, Bind.bind, Except.bind, List.findIdx?]
      · by_cases hte : veq t e = true
        · have hte2 : t = e := veq_atom_eq t e he hte
          subst hte2
          refine ⟨⟨[.push 0, .condJmp 2, .push 1, .ret, .push 1, .ret], [c, t], 0, 0⟩,
            0, 1, 1, ?_, rfl, rfl, rfl, rfl, rfl,
            run_if_chunk [c, t] 0 1 1 c t t [] 1000 rfl rfl rfl⟩
          simp [compile, compileLoop, CState.start, compStep_value_listC, compStep_value_atom,
            compStep_ifCondC, compStep_ifThenC, compStep_ifElseC, compStep_doneC,
            evalList, evalThenBranch, evalElseBranch, combineBranches, isLastExp,
            pushC, getConstIdx, emit, scPop, Scoping.start, Chunk.default, ifAst, symV, symId,
            vIdx, hc, ht, veq_refl_atom _ ht, hct, hce, Bind.bind, Except.bind, List.findIdx?]
        · refine ⟨⟨[.push 0, .condJmp 2, .push 1, .ret, .push 2, .ret], [c, t, e], 0, 0⟩,
            0, 1, 2, ?_, rfl, rfl, rfl, rfl, rfl,
            run_if_chunk [c, t, e] 0 1 2 c t e [] 1000 rfl rfl rfl⟩
          simp [compile, compileLoop, CState.start, compStep_value_listC, compStep_value_atom,
            compStep_ifCondC, compStep_ifThenC, compStep_ifElseC, compStep_doneC,
            evalList, evalThenBranch, evalElseBranch, combineBranches, isLastExp,
            pushC, getConstIdx, emit, scPop, Scoping.start, Chunk.default, ifAst, symV, symId,
            vIdx, hc, ht, he, hct, hce, hte, Bind.bind, Except.bind, List.findIdx?]
  · intro v
    rcases v with _ | b | n | s | s | ⟨i, el⟩ | ⟨i, nm⟩ | ⟨i, lo, fo, fc, fs, fa⟩ |
      ⟨i, os, fo, fc, fs, fa⟩ <;> simp [isTruthy]
    cases b <;> simp
  · intro st saved thenB st2 hcb
    exact (combineBranches_ops _ _ _ _ hcb).1
  · exact vmStep_condJmp
  · exact compile_if_shape

/-- Witness for claim C7 at `(if nil 1 2)`. -/
theorem c7_if_truthiness_witness :
    isAtomLit Value.nil = true ∧
    ∃ (C : Chunk) (k1 k2 k3 : Nat),
      compile 100 100 (ifAst .nil (.number 1) (.number 2)) = some (.ok C) ∧
      C.ops = [.push k1, .condJmp 2, .push k2, .ret, .push k3, .ret] ∧
      C.scopeSize = 0 ∧
      C.consts[k1]? = some .nil ∧ C.consts[k2]? = some (.number 1) ∧
      C.consts[k3]? = some (.number 2) ∧
      run noNat 6 C [] 1000
        = some (.ok (if isTruthy .nil then Value.number 1 else .number 2)) :=
  ⟨rfl, c7_if_truthiness.1 .nil (.number 1) (.number 2) rfl rfl rfl⟩
